import Mathlib

/-!
Verification development for the C-slop component compiler and reactive
runtime.  The JavaScript sources (`src/compiler/frontend/parser.js`,
`src/compiler/runtime/signals.js`, the code generator) are shallowly
embedded below: strings become `List Char`, the parser's mutable
line-position becomes an explicit list of remaining lines consumed from the
front, and the parser's loops become fuel-indexed recursion (`none` means
the fuel ran out, i.e. the corresponding JavaScript loop had not yet
terminated after that many iterations).
-/

set_option maxRecDepth 8000

namespace CSlop

/-- Strings are modelled as lists of characters. -/
abbrev Str := List Char

/-- JavaScript whitespace (the ASCII part, which is all the sources use). -/
def jsWhite (c : Char) : Bool :=
  c == ' ' || c == '\t' || c == '\n' || c == '\r' || c == '\x0b' || c == '\x0c'

/-- Embeds `String.prototype.trimStart`. -/
def jsTrimStart (s : Str) : Str := s.dropWhile jsWhite

/-- Embeds `String.prototype.trim`. -/
def jsTrim (s : Str) : Str := ((s.dropWhile jsWhite).reverse.dropWhile jsWhite).reverse

/-- Embeds `getIndent` from parser.js: `line.length - line.trimStart().length`. -/
def getIndent (l : Str) : Nat := l.length - (jsTrimStart l).length

/-- First index (from `i`) at which `sub` occurs in `s`, JS `indexOf` style. -/
def idxOfFrom (s sub : Str) (i : Nat) : Option Nat :=
  if sub.isPrefixOf s then some i
  else match s with
    | [] => none
    | _ :: t => idxOfFrom t sub (i + 1)

/-- Embeds `String.prototype.includes`. -/
def hasSubstr (s sub : Str) : Bool := (idxOfFrom s sub 0).isSome

/-- Embeds `String.prototype.indexOf`, `-1` when absent. -/
def jsIndexOf (s sub : Str) : Int :=
  match idxOfFrom s sub 0 with
  | some i => (i : Int)
  | none => -1

/-- Helper for `lastIndexOf`: last index at which `sub` occurs. -/
def lastIdxAux : Str → Str → Nat → Option Nat → Option Nat
  | s, sub, i, best =>
    let best' := if sub.isPrefixOf s then some i else best
    match s with
    | [] => best'
    | _ :: t => lastIdxAux t sub (i + 1) best'

/-- Embeds `String.prototype.lastIndexOf`, `-1` when absent. -/
def jsLastIndexOf (s sub : Str) : Int :=
  match lastIdxAux s sub 0 none with
  | some i => (i : Int)
  | none => -1

/-- Embeds `String.prototype.substring`: clamps both arguments to `[0, length]` and
swaps them when `a > b`. -/
def jsSubstring (s : Str) (a b : Int) : Str :=
  let n : Int := (s.length : Int)
  let clamp : Int → Int := fun x => if x < 0 then 0 else if x > n then n else x
  let a' := clamp a
  let b' := clamp b
  let lo := min a' b'
  let hi := max a' b'
  (s.drop lo.toNat).take (hi - lo).toNat

/-- Embeds `code.split('\\n')` from `parseMultilineBlock`: in the JavaScript source
`'\\n'` is the two-character separator backslash-`n`; split on each
non-overlapping occurrence, left to right. -/
def jsSplitOnBackslashN : Str → Str → List Str
  | [], cur => [cur.reverse]
  | '\\' :: 'n' :: t, cur => cur.reverse :: jsSplitOnBackslashN t []
  | c :: t, cur => jsSplitOnBackslashN t (c :: cur)

/-- Embeds `\w` character class: `[A-Za-z0-9_]`. -/
def isWordChar (c : Char) : Bool := c.isAlpha || c.isDigit || c == '_'

/-! ## Reactive runtime (`src/compiler/runtime/signals.js`)

A signal holds a current value and a `Set` of subscriber callbacks.  A JS
`Set` iterates in insertion order and ignores duplicate additions, so the
subscriber set is modelled as a duplicate-free list in subscription order;
callbacks are opaque tokens of some type `κ`.  A write with a changed value
runs `subscribers.forEach(fn => fn())` before returning, which we model by
returning the list of callbacks invoked (in order) alongside the updated
signal. -/

structure Signal (α : Type) (κ : Type) where
  value : α
  subscribers : List κ
  deriving Repr, DecidableEq

namespace Signal

/-- Embeds `subscribers.add(fn)` (used both by tracked reads and by `subscribe`):
a JS `Set.add` keeps the first insertion position and ignores duplicates. -/
def addSubscriber [DecidableEq κ] (s : Signal α κ) (fn : κ) : Signal α κ :=
  if fn ∈ s.subscribers then s else { s with subscribers := s.subscribers ++ [fn] }

/-- The `value` setter from `signal()`:
`if (value === newValue) return; value = newValue; subscribers.forEach(fn => fn());`
Returns the updated signal together with the callbacks notified (in set
iteration order, i.e. subscription order), all before the write returns. -/
def write [DecidableEq α] (s : Signal α κ) (newValue : α) : Signal α κ × List κ :=
  if s.value = newValue then (s, [])
  else ({ s with value := newValue }, s.subscribers)

end Signal

/-! Global observer state for `effect` (`currentEffect` / `effectStack`),
with effects identified by opaque numeric tokens.  One tracked signal's
subscriber set is carried so that read-attribution can be stated. -/

structure RtState where
  currentEffect : Option Nat
  effectStack : List Nat
  tracked : List Nat
  deriving Repr, DecidableEq

/-- A tracked read (`get value` in `signal()`): when an observer is active it
is added to the signal's subscriber set. -/
def readTracked (st : RtState) : RtState :=
  match st.currentEffect with
  | none => st
  | some e => { st with tracked := if e ∈ st.tracked then st.tracked else st.tracked ++ [e] }

/-- One run of an effect's `execute` from `effect()`: save `currentEffect`,
install this effect as the observer, push it on `effectStack`, run the body,
and in a `finally` clause pop the stack and restore the saved observer.  The
body is an arbitrary state transformer returning `false` when it throws; the
`finally` runs in both cases. -/
def runEffectBody (e : Nat) (body : RtState → RtState × Bool) (st : RtState) :
    RtState × Bool :=
  let entered := { st with currentEffect := some e, effectStack := e :: st.effectStack }
  let res := body entered
  ({ res.1 with effectStack := res.1.effectStack.tail, currentEffect := st.currentEffect },
   res.2)

/-! ## Component AST (parser.js `this.ast`) -/

/-- One entry of `ast.state`: `{ name, initial, computed }`. -/
structure StateDecl where
  name : Str
  initial : Str
  computed : Bool
  deriving Repr, DecidableEq

/-- One entry of `ast.effects`: `{ deps, action }`. -/
structure EffectDecl where
  deps : List Str
  action : Str
  deriving Repr, DecidableEq

/-- One entry of `ast.imports`: `{ name, path }`. -/
structure PImport where
  name : Str
  path : Str
  deriving Repr, DecidableEq

/-- Markup nodes (the tagged variants produced by parser.js).  `nullNode`
models the JavaScript `null` that `parseConditional`/`parseLoop` return when
their regex fails and that `parseChildren` pushes into the children array. -/
inductive Node where
  | element (tag : Str) (classes : List Str) (id : Option Str) (children : List Node)
  | text (value : Str) (block : Bool)
  | codeLine (value : Str)
  | varRef (name : Str)
  | reactiveInterp (expression : Str)
  | propAccess (property : Str)
  | attrNode (name : Str) (value : Str) (dynamic : Bool)
  | event (eventName : Str) (action : Str)
  | nav (path : Str)
  | conditional (condition : Str) (trueBranch : List Node) (falseBranch : List Node)
  | loop (array : Str) (template : List Node)
  | component (tag : Str)
  | nullNode
  deriving Repr

/-- The parsed `Component` AST. -/
structure Component where
  imports : List PImport
  state : List StateDecl
  effects : List EffectDecl
  markup : List Node
  deriving Repr

/-- Alias table `this.aliases` (later definitions shadow earlier ones, so
lookups take the most recently added binding, found first). -/
abbrev Aliases := List (Str × Str)

/-! ## Line matchers

Each matcher implements one of parser.js's anchored regular expressions by
hand; the regexes are simple enough that greedy matching is deterministic.
The captured-group results are returned already `.trim()`ed exactly when the
JavaScript call sites immediately trim them. -/

/-- Embeds `/^@@[A-Z]/` (component reference test). -/
def matchAtAt : Str → Bool
  | '@' :: '@' :: c :: _ => c.isUpper
  | _ => false

/-- Embeds `/^&\w/` (alias usage test). -/
def matchAmpWord : Str → Bool
  | '&' :: c :: _ => isWordChar c
  | _ => false

/-- Embeds `/^[.#a-zA-Z]/` (element start test). -/
def matchElemStart : Str → Bool
  | c :: _ => c == '.' || c == '#' || c.isAlpha
  | _ => false

/-- Embeds `/^[.#@&a-zA-Z]/` (legacy-mode "markup begins here" test). -/
def matchLegacyMarkup : Str → Bool
  | c :: _ => c == '.' || c == '#' || c == '@' || c == '&' || c.isAlpha
  | _ => false

/-- Embeds `line.match(/^\$(\w+)\s*:=\s*(.+)$/)` from `parseState`, returning
`(name, initial.trim())`.  Since `parseState` always receives a trimmed
line, `\s*(.+)$` followed by `.trim()` is the trim of everything after
`:=`, and the match succeeds iff that remainder is non-empty. -/
def matchStateComputed : Str → Option (Str × Str)
  | '$' :: rest =>
    let w := rest.takeWhile isWordChar
    if w = [] then none
    else
      match (rest.dropWhile isWordChar).dropWhile jsWhite with
      | ':' :: '=' :: r2 => if r2 = [] then none else some (w, jsTrim r2)
      | _ => none
  | _ => none

/-- Embeds `line.match(/^\$(\w+)\s*:\s*(.+)$/)` from `parseState`, returning
`(name, initial.trim())`. -/
def matchStatePlain : Str → Option (Str × Str)
  | '$' :: rest =>
    let w := rest.takeWhile isWordChar
    if w = [] then none
    else
      match (rest.dropWhile isWordChar).dropWhile jsWhite with
      | ':' :: r2 => if r2 = [] then none else some (w, jsTrim r2)
      | _ => none
  | _ => none

/-- Embeds `parseState`: try the computed form first, then the plain form. -/
def parseState (line : Str) : Option StateDecl :=
  match matchStateComputed line with
  | some (n, v) => some ⟨n, v, true⟩
  | none =>
    match matchStatePlain line with
    | some (n, v) => some ⟨n, v, false⟩
    | none => none

/-- Embeds `line.match(/^~\s+(.+)$/)` from `parseEffect`, returning
`match[1].trim()`.  On the trimmed lines `parseEffect` receives, the match
succeeds iff `~` is followed by a whitespace character and then at least one
more character. -/
def matchEffectAction : Str → Option Str
  | '~' :: c :: c2 :: rest => if jsWhite c then some (jsTrim (c :: c2 :: rest)) else none
  | _ => none

/-- Embeds `parseEffect`: a `>` pipeline whose text nowhere contains `fetch` is
split at the first `>` into comma-separated dependencies and an action;
anything else (no `>`, or any occurrence of the substring `fetch`) keeps the
whole text as the action with no dependencies. -/
def parseEffect (line : Str) : Option EffectDecl :=
  (matchEffectAction line).map fun action =>
    if hasSubstr action ['>'] ∧ ¬ hasSubstr action "fetch".data then
      match idxOfFrom action ['>'] 0 with
      | some firstArrow =>
        ⟨((jsTrim (action.take firstArrow)).splitOn ',').map jsTrim,
         jsTrim (action.drop (firstArrow + 1))⟩
      | none => ⟨[], action⟩
    else ⟨[], action⟩

/-- Embeds `line.match(/^&(\w+)\s*=\s*(.+)$/)` from `parseAlias`, returning
`(name, definition.trim())`. -/
def matchAlias : Str → Option (Str × Str)
  | '&' :: rest =>
    let w := rest.takeWhile isWordChar
    if w = [] then none
    else
      match (rest.dropWhile isWordChar).dropWhile jsWhite with
      | '=' :: r2 => if r2 = [] then none else some (w, jsTrim r2)
      | _ => none
  | _ => none

/-! ## Pure parser helpers -/

/-- Scanner for `findContentBracket`: `prev` is the previous character (the
code's `line[i-1]`), `depth` the arbitrary-value nesting counter. -/
def fcbAux : Str → Option Char → Nat → Nat → Option Nat
  | [], _, _, _ => none
  | c :: rest, prev, depth, i =>
    if c == '[' then
      if prev == some '-' then fcbAux rest (some c) (depth + 1) (i + 1)
      else if depth == 0 then some i
      else fcbAux rest (some c) depth (i + 1)
    else if c == ']' then
      fcbAux rest (some c) (if depth > 0 then depth - 1 else depth) (i + 1)
    else fcbAux rest (some c) depth (i + 1)

/-- Embeds `findContentBracket` from parser.js (`none` is the code's `-1`). -/
def findContentBracket (line : Str) : Option Nat := fcbAux line none 0 0

/-- Token mode inside `parseElementDef`. -/
inductive DefMode where
  | tagM
  | clsM
  | idM
  deriving Repr, DecidableEq

/-- Embeds `{ type: 'Element', tag, classes, id }` (the `styles` object produced by
the parser is always empty and is omitted). -/
structure ElementDef where
  tag : Str
  classes : List Str
  id : Option Str
  deriving Repr

/-- Token flush ("save current token") in `parseElementDef` (only non-empty tokens). -/
def flushTok (ed : ElementDef) (mode : DefMode) (current : Str) : ElementDef :=
  if current = [] then ed
  else match mode with
    | .tagM => { ed with tag := current }
    | .clsM => { ed with classes := ed.classes ++ [current] }
    | .idM => { ed with id := some current }

/-- Character loop of `parseElementDef` (`inB` is the `inBracket` flag). -/
def pedAux : Str → Bool → DefMode → Str → ElementDef → ElementDef
  | [], _, mode, current, ed => flushTok ed mode current
  | c :: rest, inB, mode, current, ed =>
    if c == '[' then pedAux rest true mode (current ++ [c]) ed
    else if c == ']' then pedAux rest false mode (current ++ [c]) ed
    else if ¬ inB ∧ (c == '.' ∨ c == '#') then
      pedAux rest inB (if c == '.' then .clsM else .idM) [] (flushTok ed mode current)
    else pedAux rest inB mode (current ++ [c]) ed

/-- Embeds `parseElementDef` from parser.js (default tag `div`). -/
def parseElementDef (d : Str) : ElementDef :=
  pedAux d false .tagM [] ⟨"div".data, [], none⟩

/-- Match `\{[^}]+\}` at the start of the input (the part of the reactive
interpolation pattern after `@`), returning the inner text and the remainder
after the closing brace (with a length bound for termination). -/
def tiAux : (s : Str) → Option (Str × { r : Str // r.length < s.length })
  | [] => none
  | '}' :: after => some ([], ⟨after, by simp⟩)
  | c :: rest =>
    match tiAux rest with
    | some p => some (c :: p.1, ⟨p.2.1, by have := p.2.2; simp only [List.length_cons]; omega⟩)
    | none => none

/-- Global scan of `/@\{[^}]+\}/g` over a text, as in
`parseTextWithInterpolations`: `acc` collects the pending literal text in
reverse. -/
def interpSplit : Str → Str → List Node
  | acc, [] => if acc = [] then [] else [.text acc.reverse false]
  | acc, '@' :: '{' :: rest =>
    match tiAux rest with
    | some p =>
      if p.1 = [] then interpSplit ('@' :: acc) ('{' :: rest)
      else
        (if acc = [] then [] else [.text acc.reverse false]) ++
          .reactiveInterp (jsTrim p.1) :: interpSplit [] p.2.1
    | none => interpSplit ('@' :: acc) ('{' :: rest)
  | acc, c :: rest => interpSplit (c :: acc) rest
  termination_by _ s => s.length
  decreasing_by
    all_goals simp only [List.length_cons]
    all_goals first
      | (have h9 := p.2.2; omega)
      | omega

/-- Embeds `parseTextWithInterpolations` from parser.js: split a quoted text into
alternating `Text` / `ReactiveInterpolation` nodes; a text with no
interpolation yields a single `Text` node (even when empty). -/
def parseTextWithInterpolations (t : Str) : List Node :=
  match interpSplit [] t with
  | [] => [.text t false]
  | ns => ns

/-- The quoted-string loop of `parseInlineContent`: collects text (resolving
the `\"` escape) until an unescaped closing quote, returning the remainder
after it (everything is consumed when the quote is unterminated). -/
def scanQuoted : (s : Str) → Str × { r : Str // r.length ≤ s.length }
  | [] => ([], ⟨[], by simp⟩)
  | '\\' :: '"' :: rest =>
    let p := scanQuoted rest
    ('"' :: p.1, ⟨p.2.1, by have := p.2.2; simp only [List.length_cons]; omega⟩)
  | '"' :: rest => ([], ⟨rest, by simp⟩)
  | c :: rest =>
    let p := scanQuoted rest
    (c :: p.1, ⟨p.2.1, by have := p.2.2; simp only [List.length_cons]; omega⟩)

/-- The character class `[a-zA-Z0-9-]` of attribute names. -/
def attrNameChar (d : Char) : Bool := d.isAlpha || d.isDigit || d == '-'

/-- Match `/^@([a-zA-Z]+)\(([^)]*)\)/` after the leading `@`, returning
`(eventName, value.trim(), remainder)` with a length bound on the remainder. -/
def matchNamedEvent (rest : Str) :
    Option (Str × Str × { r : Str // r.length < rest.length }) :=
  if rest.takeWhile Char.isAlpha = [] then none
  else
    match h2 : rest.drop (rest.takeWhile Char.isAlpha).length with
    | '(' :: r2 =>
      match h3 : r2.drop ((r2.takeWhile (fun c => c != ')')).length) with
      | ')' :: r3 =>
        some (rest.takeWhile Char.isAlpha, jsTrim (r2.takeWhile (fun c => c != ')')), ⟨r3, by
          have ha := congrArg List.length h2
          have hb := congrArg List.length h3
          have hc : (rest.takeWhile Char.isAlpha).length ≤ rest.length :=
            (List.takeWhile_sublist Char.isAlpha).length_le
          simp only [List.length_drop, List.length_cons] at ha hb
          omega⟩)
      | _ => none
    | _ => none

/-- Match `/^([a-zA-Z][a-zA-Z0-9-]*)\{([^}]*)\}/`, returning
`(name, rawValue, remainder)` with a length bound on the remainder. -/
def matchAttr : (s : Str) → Option (Str × Str × { r : Str // r.length < s.length })
  | [] => none
  | c :: rest =>
    if c.isAlpha then
      match h2 : rest.drop ((rest.takeWhile attrNameChar).length) with
      | '{' :: r2 =>
        match h3 : r2.drop ((r2.takeWhile (fun d => d != '}')).length) with
        | '}' :: r3 =>
          some (c :: rest.takeWhile attrNameChar, r2.takeWhile (fun d => d != '}'), ⟨r3, by
            have ha := congrArg List.length h2
            have hb := congrArg List.length h3
            have hc : (rest.takeWhile attrNameChar).length ≤ rest.length :=
              (List.takeWhile_sublist attrNameChar).length_le
            simp only [List.length_drop, List.length_cons] at ha hb ⊢
            omega⟩)
        | _ => none
      | _ => none
    else none

/-- The weaker guard `/^([a-zA-Z][a-zA-Z0-9-]*)\{/` tested before `matchAttr`. -/
def matchAttrHead (s : Str) : Bool :=
  match s with
  | c :: rest =>
    c.isAlpha &&
      (match rest.drop ((rest.takeWhile attrNameChar).length) with
       | '{' :: _ => true
       | _ => false)
  | [] => false

/-- Embeds `parseInlineContent` from parser.js: token scan over the inline content
of an element's bracket. -/
def parseInlineContent (s : Str) : List Node :=
  let s1 := s.dropWhile jsWhite
  match h1 : s1 with
  | [] => []
  | '"' :: rest =>
    parseTextWithInterpolations (scanQuoted rest).1 ++ parseInlineContent (scanQuoted rest).2.1
  | '$' :: rest =>
    if rest.takeWhile isWordChar = [] then parseInlineContent rest
    else
      .varRef ('$' :: rest.takeWhile isWordChar) ::
        parseInlineContent (rest.drop (rest.takeWhile isWordChar).length)
  | ':' :: rest =>
    if rest.takeWhile isWordChar = [] then parseInlineContent rest
    else
      .propAccess (rest.takeWhile isWordChar) ::
        parseInlineContent (rest.drop (rest.takeWhile isWordChar).length)
  | '@' :: rest =>
    match matchNamedEvent rest with
    | some (nm, v, r3) =>
      (if nm = "nav".data then Node.nav v else Node.event nm v) :: parseInlineContent r3.1
    | none =>
      if 2 ≤ rest.length ∧ jsWhite rest.headI then [.event "click".data (jsTrim rest)]
      else parseInlineContent rest
  | c :: rest =>
    if matchAttrHead (c :: rest) then
      match matchAttr (c :: rest) with
      | some (nm, rawV, r3) =>
        let v := jsTrim rawV
        let isStatic := decide (v.head? = some '"' ∧ v.getLast? = some '"')
        .attrNode nm (if isStatic then (v.drop 1).dropLast else v) (!isStatic) ::
          parseInlineContent r3.1
      | none => parseInlineContent rest
    else parseInlineContent rest
  termination_by s.length
  decreasing_by
    all_goals
      have hd : s1.length ≤ s.length := (List.dropWhile_sublist jsWhite).length_le
    all_goals rw [h1] at hd; simp only [List.length_cons] at hd
    all_goals first
      | (have h9 := (scanQuoted rest).2.2; omega)
      | (have h9 := r3.2; simp only [List.length_cons] at h9 ⊢ <;> omega)
      | (have h9 := r3.2; omega)
      | (have h5 : (rest.takeWhile isWordChar).length ≤ rest.length :=
           (List.takeWhile_sublist isWordChar).length_le
         simp only [List.length_drop]
         omega)
      | omega

/-- The `while (pos < this.lines.length && inBlock)` scan of
`parseMultilineBlock` over the lines after the header: accumulates trimmed
code lines until a line containing ` ```] ` or trimming to ` ``` `; returns
the accumulated lines and, when the closing fence was found, the remaining
lines starting at the fence line (the code sets `this.pos = pos` only in
that case). -/
def mlbScan : List Str → List Str → List Str × Option (List Str)
  | [], acc => (acc, none)
  | l :: ls, acc =>
    if hasSubstr l "```]".data ∨ jsTrim l = "```".data then
      let beforeEnd := jsTrim (jsSubstring l 0 (jsIndexOf l "```".data))
      ((if beforeEnd = [] then acc else acc ++ [beforeEnd]), some (l :: ls))
    else mlbScan ls (acc ++ [jsTrim l])

/-- Embeds `parseMultilineBlock` from parser.js.  `rem` has the (raw) current line
at its head — the code takes `bracketContent = currentLine.substring(startPos)`
from the raw line even though `startPos` was computed on the trimmed line.
Returns the children together with the remaining lines reflecting `this.pos`
after the call. -/
def parseMultilineBlock (rem : List Str) (startPos : Nat) : List Node × List Str :=
  match rem with
  | [] => ([], [])
  | l :: ls =>
    let bracketContent := l.drop startPos
    if hasSubstr bracketContent "```".data ∧ jsLastIndexOf bracketContent "```".data > 3 then
      let code := jsSubstring bracketContent (jsIndexOf bracketContent "```".data + 3)
        (jsLastIndexOf bracketContent "```".data)
      ((jsSplitOnBackslashN code []).filterMap
          (fun ln => if jsTrim ln = [] then none else some (.text ln true)),
        l :: ls)
    else
      let firstLineContent := jsTrim (bracketContent.drop 3)
      let acc0 := if firstLineContent ≠ [] ∧ ¬ ("```".data.isPrefixOf firstLineContent)
        then [firstLineContent] else []
      match mlbScan ls acc0 with
      | (codeLines, some remClose) => (codeLines.map (fun v => Node.codeLine v), remClose)
      | (codeLines, none) => (codeLines.map (fun v => Node.codeLine v), l :: ls)

/-- The inline-content step of `parseMarkup`: when the trimmed line has a
content bracket, extract `line.substring(bracketIndex + 1, line.lastIndexOf(']'))`
and parse it (as a fenced multi-line block when it starts with the fence),
returning the inline children and the remaining lines (`rem` has the raw
current line at its head). -/
def inlinePart (line : Str) (rem : List Str) : List Node × List Str :=
  match findContentBracket line with
  | some i =>
    let content := jsSubstring line ((i : Int) + 1) (jsLastIndexOf line [']'])
    if "```".data.isPrefixOf content then parseMultilineBlock rem (i + 1)
    else (parseInlineContent content, rem)
  | none => ([], rem)

/-- Test "has a more-indented, non-empty next line" test for the loop/variable
disambiguation in `parseChildren` (the code's `hasChildren`). -/
def hasNextChild (rest : List Str) (ind : Nat) : Bool :=
  match rest with
  | [] => false
  | l2 :: _ => decide (getIndent l2 > ind) && decide (jsTrim l2 ≠ [])

/-! ## The fueled line-consuming parser loops

Each function takes the remaining lines (the suffix of `this.lines` from
`this.pos`) and the current `this.ast.imports`, and returns its result, the
updated imports, and the remaining lines after it.  `none` means the fuel
ran out before the corresponding JavaScript loop finished. -/

mutual

/-- Embeds `parseRootElements` from parser.js. -/
def parseRootElements : Nat → Aliases → List Str → List PImport →
    Option (List Node × List PImport × List Str)
  | 0, _, _, _ => none
  | fuel + 1, al, rem, imps =>
    match rem with
    | [] => some ([], imps, [])
    | l :: rest =>
      let line := jsTrim l
      if line = [] ∨ "//".data.isPrefixOf line then
        parseRootElements fuel al rest imps
      else if matchAtAt line ∧ getIndent l = 0 then
        (parseRootElements fuel al rest
            (imps ++ [⟨line.drop 2, "./".data ++ line.drop 2 ++ ".js".data⟩])).map
          fun r => (Node.component (line.drop 2) :: r.1, r.2)
      else if matchAmpWord line ∧ getIndent l = 0 then
        (parseMarkup fuel al (l :: rest) imps).bind fun p =>
          (parseRootElements fuel al p.2.2 p.2.1).map fun r => (p.1 :: r.1, r.2)
      else if matchElemStart line ∧ getIndent l = 0 then
        (parseMarkup fuel al (l :: rest) imps).bind fun p =>
          (parseRootElements fuel al p.2.2 p.2.1).map fun r => (p.1 :: r.1, r.2)
      else if getIndent l = 0 then
        some ([], imps, l :: rest)
      else
        parseRootElements fuel al rest imps

/-- Embeds `parseMarkup` from parser.js. -/
def parseMarkup : Nat → Aliases → List Str → List PImport →
    Option (Node × List PImport × List Str)
  | 0, _, _, _ => none
  | fuel + 1, al, rem, imps =>
    match rem with
    | [] => none
    | l :: rest =>
      let line := jsTrim l
      let bIdx := findContentBracket line
      let elementDef0 := match bIdx with
        | some i => line.take i
        | none => line
      let elementDef := match elementDef0 with
        | '&' :: aliasName =>
          match al.lookup aliasName with
          | some d => d
          | none => elementDef0
        | _ => elementDef0
      let ed := parseElementDef elementDef
      let inl := inlinePart line (l :: rest)
      (parseChildren fuel al (getIndent l) (inl.2.drop 1) imps).map
        fun r => (Node.element ed.tag ed.classes ed.id (inl.1 ++ r.1), r.2)

/-- Embeds `parseChildren` from parser.js. -/
def parseChildren : Nat → Aliases → Nat → List Str → List PImport →
    Option (List Node × List PImport × List Str)
  | 0, _, _, _, _ => none
  | fuel + 1, al, pI, rem, imps =>
    match rem with
    | [] => some ([], imps, [])
    | l :: rest =>
      let ind := getIndent l
      let trimmed := jsTrim l
      if ind ≤ pI ∧ trimmed ≠ [] then some ([], imps, l :: rest)
      else if trimmed = [] ∨ "//".data.isPrefixOf trimmed then
        parseChildren fuel al pI rest imps
      else if trimmed.head? = some '"' then
        (parseChildren fuel al pI rest imps).map
          fun r => (Node.text ((trimmed.drop 1).dropLast) false :: r.1, r.2)
      else if trimmed.head? = some '$' ∧ ¬ trimmed.contains '[' then
        if hasNextChild rest ind then
          (parseLoop fuel al (l :: rest) imps).bind fun p =>
            (parseChildren fuel al pI p.2.2 p.2.1).map fun r => (p.1 :: r.1, r.2)
        else
          (parseChildren fuel al pI rest imps).map
            fun r => (Node.varRef trimmed :: r.1, r.2)
      else if trimmed.head? = some '?' then
        (parseConditional fuel al (l :: rest) imps).bind fun p =>
          (parseChildren fuel al pI p.2.2 p.2.1).map fun r => (p.1 :: r.1, r.2)
      else if matchAtAt trimmed then
        (parseChildren fuel al pI rest
            (if imps.any (fun i => i.name == trimmed.drop 2) then imps
             else imps ++ [⟨trimmed.drop 2, "./".data ++ trimmed.drop 2 ++ ".js".data⟩])).map
          fun r => (Node.component (trimmed.drop 2) :: r.1, r.2)
      else if matchAmpWord trimmed then
        (parseMarkup fuel al (l :: rest) imps).bind fun p =>
          (parseChildren fuel al pI p.2.2 p.2.1).map fun r => (p.1 :: r.1, r.2)
      else if matchElemStart trimmed then
        (parseMarkup fuel al (l :: rest) imps).bind fun p =>
          (parseChildren fuel al pI p.2.2 p.2.1).map fun r => (p.1 :: r.1, r.2)
      else
        parseChildren fuel al pI rest imps

/-- Embeds `parseConditional` from parser.js (`nullNode` with unchanged position
when `/^\?\s+(.+)/` does not match). -/
def parseConditional : Nat → Aliases → List Str → List PImport →
    Option (Node × List PImport × List Str)
  | 0, _, _, _ => none
  | fuel + 1, al, rem, imps =>
    match rem with
    | [] => none
    | l :: rest =>
      match jsTrim l with
      | '?' :: c :: r2 =>
        if jsWhite c ∧ (c :: r2).dropWhile jsWhite ≠ [] then
          (parseChildren fuel al (getIndent l) rest imps).map
            fun r => (Node.conditional ((c :: r2).dropWhile jsWhite) r.1 [], r.2)
        else some (Node.nullNode, imps, l :: rest)
      | _ => some (Node.nullNode, imps, l :: rest)

/-- Embeds `parseLoop` from parser.js (`nullNode` with unchanged position when
`/^\$(\w+)/` does not match). -/
def parseLoop : Nat → Aliases → List Str → List PImport →
    Option (Node × List PImport × List Str)
  | 0, _, _, _ => none
  | fuel + 1, al, rem, imps =>
    match rem with
    | [] => none
    | l :: rest =>
      match jsTrim l with
      | '$' :: r =>
        if r.takeWhile isWordChar = [] then some (Node.nullNode, imps, l :: rest)
        else
          (parseChildren fuel al (getIndent l) rest imps).map
            fun t => (Node.loop ('$' :: r.takeWhile isWordChar) t.1, t.2)
      | _ => some (Node.nullNode, imps, l :: rest)

end

/-! ## The two parse phases (`parse()` in parser.js) -/

/-- Accumulated preamble state (`ast.state`, `ast.effects`, `this.aliases`). -/
structure PreAcc where
  state : List StateDecl
  effects : List EffectDecl
  aliases : Aliases
  deriving Repr

/-- One iteration of the separator-mode preamble loop of `parse()`. -/
def preStep (acc : PreAcc) (l : Str) : PreAcc :=
  let line := jsTrim l
  if line = [] ∨ "//".data.isPrefixOf line then acc
  else if line.head? = some '$' then
    match parseState line with
    | some sd => { acc with state := acc.state ++ [sd] }
    | none => acc
  else if line.head? = some '~' then
    match parseEffect line with
    | some e => { acc with effects := acc.effects ++ [e] }
    | none => acc
  else if line.head? = some '&' then
    match matchAlias line with
    | some nd => { acc with aliases := nd :: acc.aliases }
    | none => acc
  else acc

/-- The legacy-mode loop of `parse()` (no `<?` separator): collect preamble
lines until the first markup-looking line, which starts the markup phase. -/
def legacyScan : List Str → PreAcc → PreAcc × Option (List Str)
  | [], acc => (acc, none)
  | l :: rest, acc =>
    let line := jsTrim l
    if line = [] ∨ "//".data.isPrefixOf line then legacyScan rest acc
    else if line.head? = some '$' then
      legacyScan rest
        (match parseState line with
         | some sd => { acc with state := acc.state ++ [sd] }
         | none => acc)
    else if line.head? = some '~' then
      legacyScan rest
        (match parseEffect line with
         | some e => { acc with effects := acc.effects ++ [e] }
         | none => acc)
    else if line.head? = some '&' ∧ line.contains '=' then
      legacyScan rest
        (match matchAlias line with
         | some nd => { acc with aliases := nd :: acc.aliases }
         | none => acc)
    else if matchLegacyMarkup line then (acc, some (l :: rest))
    else legacyScan rest acc

/-- Embeds `parse()` over an already-split list of source lines. -/
def parseLines (fuel : Nat) (lines : List Str) : Option Component :=
  match lines.findIdx? (fun l => jsTrim l == "<?".data) with
  | some sep =>
    let acc := (lines.take sep).foldl preStep ⟨[], [], []⟩
    (parseRootElements fuel acc.aliases (lines.drop (sep + 1)) []).map
      fun r => ⟨r.2.1, acc.state, acc.effects, r.1⟩
  | none =>
    match legacyScan lines ⟨[], [], []⟩ with
    | (acc, some rem) =>
      (parseRootElements fuel acc.aliases rem []).map
        fun r => ⟨r.2.1, acc.state, acc.effects, r.1⟩
    | (acc, none) => some ⟨[], acc.state, acc.effects, []⟩

/-- Embeds `parse()` / `parseComponent(source)` from parser.js: split the source on
newlines and run the two phases. -/
def parseComponent (fuel : Nat) (source : Str) : Option Component :=
  parseLines fuel (source.splitOn '\n')

/-! ## Code generator (class scoping and style-sheet emission) -/

/-- The alternatives of `ARBITRARY_CLASS_REGEX`
`/^(p|px|…|opacity)-\[(.+)\]$/`, in alternation order. -/
def arbitraryPrefixes : List Str :=
  ["p", "px", "py", "pt", "pb", "pl", "pr", "m", "mx", "my", "mt", "mb", "ml", "mr",
   "w", "h", "min-w", "max-w", "min-h", "max-h", "gap", "text", "bg", "border",
   "rounded", "top", "right", "bottom", "left", "z", "opacity"].map String.data

/-- Embeds `isArbitraryClass`: the anchored regex matches iff the class is
`a ++ "-[" ++ v ++ "]"` for some alternative `a` and non-empty `v`. -/
def isArbitraryClass (c : Str) : Bool :=
  arbitraryPrefixes.any fun a =>
    (a ++ "-[".data).isPrefixOf c && c.getLast? == some ']' && decide (a.length + 4 ≤ c.length)

/-- Embeds `UTILITY_CLASS_PREFIXES` from the code generator. -/
def utilityClassPrefixes : List Str :=
  ["btn", "card", "input", "textarea", "select", "checkbox", "radio", "toggle",
   "alert", "badge", "container", "flex", "grid", "items-", "justify-", "gap-",
   "col-", "row-", "p-", "px-", "py-", "pt-", "pb-", "pl-", "pr-", "m-", "mx-",
   "my-", "mt-", "mb-", "ml-", "mr-", "text-", "font-", "leading-", "tracking-",
   "w-", "h-", "min-", "max-", "hidden", "block", "inline", "relative", "absolute",
   "fixed", "sticky", "table", "navbar", "nav-", "breadcrumb", "tabs", "tab-",
   "modal", "progress", "tooltip", "dropdown", "avatar", "overflow-"].map String.data

/-- Embeds `isUtilityClass`: arbitrary-value classes or any recognized prefix. -/
def isUtilityClass (c : Str) : Bool :=
  isArbitraryClass c || utilityClassPrefixes.any fun p => p.isPrefixOf c

/-- JavaScript `ToInt32` (the effect of `hash & hash` and of `<<`). -/
def toInt32 (z : Int) : Int := (z + 2 ^ 31) % 2 ^ 32 - 2 ^ 31

/-- One iteration of `generateScopeId`'s loop:
`hash = ((hash << 5) - hash) + name.charCodeAt(i); hash = hash & hash;`. -/
def hashStep (h : Int) (c : Char) : Int := toInt32 (toInt32 (h * 32) - h + c.toNat)

/-- The string hash inside `generateScopeId`. -/
def jsHash (name : Str) : Int := name.foldl hashStep 0

/-- Base-36 digit characters (`0-9a-z`), as used by `Number.toString(36)`. -/
def base36Char (d : Nat) : Char :=
  if d < 10 then Char.ofNat (48 + d) else Char.ofNat (87 + d)

/-- Digit loop for `toString(36)`; the fuel (strictly) bounds the number of
digits, so `n + 1` always suffices. -/
def toBase36Aux : Nat → Nat → Str → Str
  | 0, n, acc => base36Char (n % 36) :: acc
  | k + 1, n, acc =>
    if n < 36 then base36Char n :: acc
    else toBase36Aux k (n / 36) (base36Char (n % 36) :: acc)

/-- Embeds `Math.abs(hash).toString(36)` for naturals. -/
def toBase36 (n : Nat) : Str := toBase36Aux (n + 1) n []

/-- Embeds `generateScopeId` from the code generator:
`Math.abs(hash).toString(36).slice(0, 4)`. -/
def generateScopeId (name : Str) : Str := (toBase36 (jsHash name).natAbs).take 4

/-- The class partition in `generateProps`:
`element.classes.map(c => isUtilityClass(c) ? c : `${c}-${this.scopeId}`)`. -/
def processedClasses (scopeId : Str) (classes : List Str) : List Str :=
  classes.map fun c => if isUtilityClass c then c else c ++ "-".data ++ scopeId

/-- The scoped selector parts pushed by `collectStyles` for one local class
(the parser always produces an empty `styles` object, so no declarations). -/
def cssRuleLines (scopeId : Str) (c : Str) : List Str :=
  [".".data ++ c ++ "-".data ++ scopeId ++ " \x7b".data, "\x7d".data, []]

mutual

/-- Embeds `collectStyles` from the code generator (returns the pushed parts). -/
def collectStyles (scopeId : Str) : Node → List Str
  | .element _ classes _ children =>
    (classes.map fun c => if isUtilityClass c then [] else cssRuleLines scopeId c).flatten
      ++ collectStylesChildren scopeId children
  | _ => []

/-- The `element.children.forEach` dispatch inside `collectStyles`. -/
def collectStylesChildren (scopeId : Str) : List Node → List Str
  | [] => []
  | n :: rest =>
    (match n with
     | .element t cs i ch => collectStyles scopeId (.element t cs i ch)
     | .conditional _ tb fb =>
       collectStylesBranch scopeId tb ++ collectStylesBranch scopeId fb
     | _ => []) ++ collectStylesChildren scopeId rest

/-- Embeds `branch.forEach(el => this.collectStyles(el, parts))`. -/
def collectStylesBranch (scopeId : Str) : List Node → List Str
  | [] => []
  | n :: rest => collectStyles scopeId n ++ collectStylesBranch scopeId rest

end

mutual

/-- Embeds `collectArbitraryClasses` (a JS `Set` in insertion order as the `acc`). -/
def collectArb : List Str → Node → List Str
  | acc, .element _ classes _ children =>
    collectArbChildren
      (classes.foldl
        (fun a c => if isArbitraryClass c ∧ ¬ a.contains c then a ++ [c] else a) acc)
      children
  | acc, .conditional _ tb fb => collectArbChildren (collectArbChildren acc tb) fb
  | acc, .loop _ tmpl => collectArbChildren acc tmpl
  | acc, _ => acc

/-- Recursion of `collectArbitraryClasses` over a node list. -/
def collectArbChildren : List Str → List Node → List Str
  | acc, [] => acc
  | acc, n :: rest => collectArbChildren (collectArb acc n) rest

end

/-- Embeds `isColorValue` from the code generator. -/
def isColorValue (v : Str) : Bool :=
  "#".data.isPrefixOf v || "rgb".data.isPrefixOf v || "hsl".data.isPrefixOf v

/-- Embeds `ARBITRARY_PROPERTY_MAP`. -/
def arbitraryPropertyMap : List (Str × List Str) :=
  [("p", ["padding"]), ("px", ["padding-left", "padding-right"]),
   ("py", ["padding-top", "padding-bottom"]), ("pt", ["padding-top"]),
   ("pb", ["padding-bottom"]), ("pl", ["padding-left"]), ("pr", ["padding-right"]),
   ("m", ["margin"]), ("mx", ["margin-left", "margin-right"]),
   ("my", ["margin-top", "margin-bottom"]), ("mt", ["margin-top"]),
   ("mb", ["margin-bottom"]), ("ml", ["margin-left"]), ("mr", ["margin-right"]),
   ("w", ["width"]), ("h", ["height"]), ("min-w", ["min-width"]),
   ("max-w", ["max-width"]), ("min-h", ["min-height"]), ("max-h", ["max-height"]),
   ("gap", ["gap"]), ("bg", ["background-color"]), ("rounded", ["border-radius"]),
   ("top", ["top"]), ("right", ["right"]), ("bottom", ["bottom"]), ("left", ["left"]),
   ("z", ["z-index"]), ("opacity", ["opacity"])].map
    fun p => (p.1.data, p.2.map String.data)

/-- Embeds `parseArbitraryClass`: first matching alternative plus the bracketed value. -/
def parseArbitraryClass (c : Str) : Option (Str × Str) :=
  (arbitraryPrefixes.find? fun a =>
    (a ++ "-[".data).isPrefixOf c && c.getLast? == some ']'
      && decide (a.length + 4 ≤ c.length)).map
    fun a => (a, (c.drop (a.length + 2)).dropLast)

/-- Embeds `getArbitraryProperties` (the two value-shape-dependent prefixes first). -/
def getArbitraryProperties (pfx : Str) (v : Str) : List Str :=
  if pfx = "text".data then if isColorValue v then ["color".data] else ["font-size".data]
  else if pfx = "border".data then
    if isColorValue v then ["border-color".data] else ["border-width".data]
  else (arbitraryPropertyMap.lookup pfx).getD []

/-- Embeds `escapeForCSS`. -/
def escapeForCSS (c : Str) : Str :=
  (c.map fun ch =>
    if ch = '[' then ['\\', '[']
    else if ch = ']' then ['\\', ']']
    else if ch = '#' then ['\\', '#'] else [ch]).flatten

/-- Embeds `generateArbitraryClassCSS`. -/
def generateArbitraryClassCSS (c : Str) : Option Str :=
  (parseArbitraryClass c).bind fun pv =>
    match getArbitraryProperties pv.1 pv.2 with
    | [] => none
    | props =>
      some (".".data ++ escapeForCSS c ++ " \x7b\n".data ++
        List.intercalate "\n".data
          (props.map fun p => "  ".data ++ p ++ ": ".data ++ pv.2 ++ ";".data) ++
        "\n\x7d".data)

/-- The parts list assembled by `generateCSS`. -/
def cssParts (markup : List Node) (componentName : Str) : List Str :=
  let scopeId := generateScopeId componentName
  let styleParts := (markup.map fun el => collectStyles scopeId el).flatten
  let arb := markup.foldl collectArb []
  ["/* Generated from ".data ++ componentName ++ ".ui */".data, []]
    ++ styleParts
    ++ (if arb ≠ [] then
          "/* Arbitrary value utilities */".data ::
            (arb.map fun c =>
              match generateArbitraryClassCSS c with
              | some css => [css, []]
              | none => []).flatten
        else [])

/-- Embeds `generateCSS`: the parts joined with newlines. -/
def generateCSS (markup : List Node) (componentName : Str) : Str :=
  List.intercalate ['\n'] (cssParts markup componentName)

/-! ## List helper (`list` from the runtime DOM helpers)

`renderItem` in generated code creates fresh DOM nodes on every call
(`document.createElement` / `h`); fresh node identity is modelled by an
allocation counter: rendering item `x` at `index` with the template shape
`shape` allocates `shape x index` nodes with ids `[a, a + shape x index)`. -/

structure DNode where
  nodeId : Nat
  deriving Repr, DecidableEq

/-- Embeds `array.forEach((item, index) => …container.appendChild(el)…)` of one
`render()` pass: all items rendered in order, fresh nodes allocated. -/
def renderPass (shape : α → Nat → Nat) : List α → Nat → Nat → List DNode × Nat
  | [], _, a => ([], a)
  | x :: xs, idx, a =>
    let here := (List.range (shape x idx)).map fun j => DNode.mk (a + j)
    let rest := renderPass shape xs (idx + 1) (a + shape x idx)
    (here ++ rest.1, rest.2)

/-- The container state of one `list()` invocation. -/
structure ListHelperState where
  container : List DNode
  alloc : Nat
  deriving Repr, DecidableEq

/-- Embeds `list(arrayOrSignal, renderItem)` with a signal source: the initial
`render()` renders every current item, then `arrayOrSignal.subscribe(render)`
registers the rebuild callback (token `cb`). -/
def listMount (shape : α → Nat → Nat) (s : Signal (List α) Nat) (cb : Nat)
    (alloc0 : Nat) : Signal (List α) Nat × ListHelperState :=
  let p := renderPass shape s.value 0 alloc0
  (s.addSubscriber cb, ⟨p.1, p.2⟩)

/-- One subscriber notification re-runs `render()`: `container.innerHTML = ''`
discards the entire previous child set, then every item of the new collection
is rendered from scratch. -/
def listRebuild (shape : α → Nat → Nat) (st : ListHelperState) (newArr : List α) :
    ListHelperState :=
  let p := renderPass shape newArr 0 st.alloc
  ⟨p.1, p.2⟩

/-! ## Declarative characterization of `findContentBracket` (for C2) -/

/-- Embeds `line[i-1]` (`none` at `i = 0`). -/
def prevCharAt (line : Str) (i : Nat) : Option Char :=
  if i = 0 then none else line.get? (i - 1)

/-- The depth-update rule of `findContentBracket`, read off one character:
a bracket immediately preceded by a hyphen opens a nesting level, `]` closes
one (at depth 0 it stays 0), everything else leaves the depth unchanged. -/
def depthStep (prev : Option Char) (c : Option Char) (d : Nat) : Nat :=
  if c = some '[' then (if prev = some '-' then d + 1 else d)
  else if c = some ']' then d - 1
  else d

/-- Depth before scanning index `i`. -/
def depthUpTo (line : Str) : Nat → Nat
  | 0 => 0
  | i + 1 => depthStep (prevCharAt line i) (line.get? i) (depthUpTo line i)

/-- The specification predicate: index `i` is a content bracket iff it holds
a `[` that is not hyphen-prefixed and sits at depth 0. -/
def isContentBracketAt (line : Str) (i : Nat) : Bool :=
  line.get? i == some '[' && prevCharAt line i != some '-' && depthUpTo line i == 0

/-- The specification function: the first index satisfying
`isContentBracketAt`, if any. -/
def specFindBracket (line : Str) : Option Nat :=
  (List.range line.length).find? (isContentBracketAt line)

/-! ## Remaining definitions used by the theorems -/

/-- The names of the registered imports. -/
def importNames (imps : List PImport) : List Str := imps.map PImport.name

/-- A line that `parseRootElements` treats as a root-level component
reference (unguarded import push): `/^@@[A-Z]/` on the trimmed line at
indentation 0. -/
def isRootCompRef (l : Str) : Bool := matchAtAt (jsTrim l) && decide (getIndent l = 0)

/-- Invariant "the step keeps the import names duplicate-free": invariant transported
from the imports before a parser call to the imports after it. -/
def ImpsOk (a b : List PImport) : Prop :=
  (importNames a).Nodup → (importNames b).Nodup

/-- A preamble line that contributes nothing in separator mode: blank,
comment, not a `$`/`~`/`&` line, or a `$`/`~`/`&` line whose regex fails. -/
def preLineInert (l : Str) : Bool :=
  let line := jsTrim l
  line.isEmpty || "//".data.isPrefixOf line ||
    (line.head? == some '$' && (parseState line).isNone) ||
    (line.head? == some '~' && (parseEffect line).isNone) ||
    (line.head? == some '&' && (matchAlias line).isNone) ||
    (line.head? != some '$' && line.head? != some '~' && line.head? != some '&')

/-! Claim-specific concrete inputs and probes. -/

/-- Source with one nesting level indented by 2 spaces:
`<?` / `div` / `␣␣i[\`\`\`]`. -/
def srcIndent2 : Str := "<?\ndiv\n  i[```]".data

/-- The same source with the nesting level indented by 4 spaces. -/
def srcIndent4 : Str := "<?\ndiv\n    i[```]".data

/-- Projection extracting the grandchild node that distinguishes the two
parses of `srcIndent2`/`srcIndent4` (constructor tag and payload). -/
def probeIndent (oc : Option Component) : Option (Nat × Str × Bool) :=
  oc.bind fun c =>
    match c.markup with
    | [.element _ _ _ [.element _ _ _ [k]]] =>
      match k with
      | .codeLine v => some (1, v, false)
      | .text v b => some (2, v, b)
      | _ => some (0, [], false)
    | _ => none

/-- Source whose third line is malformed (children position):
`<?` / `div` / `␣␣$items` / `␣␣␣␣%%%junk`. -/
def srcWithJunk : Str := "<?\ndiv\n  $items\n    %%%junk".data

/-- The same source with the malformed line removed. -/
def srcNoJunk : Str := "<?\ndiv\n  $items".data

/-- Projection extracting the node kind parsed for the `$items` line. -/
def probeJunk (oc : Option Component) : Option (Nat × Str) :=
  oc.bind fun c =>
    match c.markup with
    | [.element _ _ _ [k]] =>
      match k with
      | .loop a tmpl => some (tmpl.length, a)
      | .varRef n => some (99, n)
      | _ => some (0, [])
    | _ => none

/-- Source on which `parseChildren` loops forever: the nested line `?` makes
`parseConditional` return `null` without advancing the position. -/
def srcHang : Str := "<?\ndiv\n  ?".data

/-- The remaining-lines state at which the children loop spins: the single
line `␣␣?` below the root `div` (parent indentation 0). -/
def remHang : List Str := ["  ?".data]

/-! # Theorems -/

/-- C1: Writing a value different from the current one to a signal
notifies exactly the currently subscribed callbacks, each exactly once, in
subscription order, as part of the write itself (the notification list is
returned by `Signal.write` before anything else observes the state); writing
an equal value changes nothing and notifies nobody; and subscribing keeps
the subscriber set duplicate-free and never removes existing subscribers. -/
theorem signal_write_notifies {α κ : Type} [DecidableEq α] [DecidableEq κ]
    (s : Signal α κ) (v : α) (h : s.subscribers.Nodup) :
    (v ≠ s.value →
      (s.write v).1.value = v ∧
      (s.write v).1.subscribers = s.subscribers ∧
      (s.write v).2 = s.subscribers ∧
      ∀ fn ∈ s.subscribers, (s.write v).2.count fn = 1) ∧
    (v = s.value → s.write v = (s, [])) ∧
    (∀ fn : κ, (s.addSubscriber fn).subscribers.Nodup ∧
      ∀ g ∈ s.subscribers, g ∈ (s.addSubscriber fn).subscribers) := by
  refine ⟨fun hne => ?_, fun heq => ?_, fun fn => ?_⟩
  · have hv : ¬ (s.value = v) := fun hh => hne hh.symm
    refine ⟨?_, ?_, ?_, ?_⟩ <;> simp only [Signal.write, if_neg hv]
    intro fn hfn
    exact List.count_eq_one_of_mem h hfn
  · simp [Signal.write, heq]
  · constructor
    · simp only [Signal.addSubscriber]
      split
      · exact h
      · rename_i hmem
        simp only [List.nodup_append, List.nodup_singleton, true_and]
        exact ⟨h, by simpa using hmem⟩
    · intro g hg
      simp only [Signal.addSubscriber]
      split
      · exact hg
      · exact List.mem_append_left _ hg

/-- Witness for C1 at a concrete signal. -/
theorem signal_write_notifies_witness :
    ((Signal.mk 0 [10, 11] : Signal Nat Nat).write 5).2 = [10, 11] ∧
    ((Signal.mk 0 [10, 11] : Signal Nat Nat).write 0).2 = [] := by
  constructor
  · exact ((signal_write_notifies (Signal.mk 0 [10, 11]) 5 (by decide)).1
      (by decide)).2.2.1
  · have h2 := (signal_write_notifies (Signal.mk 0 [10, 11] : Signal Nat Nat) 0
      (by decide)).2.1 rfl
    rw [h2]

/-- C9: During an effect body the process-wide observer is that effect
and it is restored afterwards for every body, throwing (`false`) or not;
a nested effect attributes its reads to itself: after running effect `e`
whose body runs effect `inner` whose body reads the tracked signal, `inner`
was subscribed and `e` was not. -/
theorem effect_observer_scoped (e inner : Nat) (st : RtState)
    (hne : inner ≠ e) (hout : e ∉ st.tracked) :
    (∀ body : RtState → RtState × Bool,
      ((runEffectBody e body st).1).currentEffect = st.currentEffect) ∧
    ((runEffectBody e
        (fun s1 => runEffectBody inner (fun s2 => (readTracked s2, true)) s1)
        st).1.tracked =
      (if inner ∈ st.tracked then st.tracked else st.tracked ++ [inner])) ∧
    e ∉ (runEffectBody e
        (fun s1 => runEffectBody inner (fun s2 => (readTracked s2, true)) s1)
        st).1.tracked := by
  refine ⟨fun body => rfl, ?_, ?_⟩
  · simp only [runEffectBody, readTracked]
  · simp only [runEffectBody, readTracked]
    split
    · exact hout
    · intro hmem
      rcases List.mem_append.mp hmem with hl | hr
      · exact hout hl
      · exact hne (List.mem_singleton.mp hr).symm

/-- Witness for C9 at concrete effects and state. -/
theorem effect_observer_scoped_witness :
    ((runEffectBody 0 (fun s => (s, false)) (RtState.mk (some 5) [] [])).1).currentEffect
      = some 5 ∧
    (runEffectBody 0
        (fun s1 => runEffectBody 1 (fun s2 => (readTracked s2, true)) s1)
        (RtState.mk (some 5) [] [])).1.tracked = [1] := by
  have h := effect_observer_scoped 0 1 (RtState.mk (some 5) [] [])
    (by decide) (by simp)
  exact ⟨h.1 (fun s => (s, false)), by simpa using h.2.1⟩

/-- Every node allocated by a render pass has id in `[a, finalAlloc)`, and
the allocator never decreases. -/
theorem renderPass_bounds {α : Type} (shape : α → Nat → Nat) :
    ∀ (xs : List α) (idx a : Nat),
      a ≤ (renderPass shape xs idx a).2 ∧
      ∀ n ∈ (renderPass shape xs idx a).1,
        a ≤ n.nodeId ∧ n.nodeId < (renderPass shape xs idx a).2 := by
  intro xs
  induction xs with
  | nil => intro idx a; simp [renderPass]
  | cons x xs ih =>
    intro idx a
    obtain ⟨h1, h2⟩ := ih (idx + 1) (a + shape x idx)
    simp only [renderPass]
    refine ⟨by omega, ?_⟩
    intro n hn
    rcases List.mem_append.mp hn with hl | hr
    · simp only [List.mem_map, List.mem_range] at hl
      obtain ⟨j, hj, rfl⟩ := hl
      exact ⟨show a ≤ a + j by omega,
        show a + j < (renderPass shape xs (idx + 1) (a + shape x idx)).2 by omega⟩
    · obtain ⟨hn1, hn2⟩ := h2 n hr
      exact ⟨by omega, hn2⟩

/-- A render pass renders every item: it emits `shape x i` nodes for each
item `x` at position `i`, concatenated in order. -/
theorem renderPass_length {α : Type} (shape : α → Nat → Nat) :
    ∀ (xs : List α) (idx a : Nat),
      (renderPass shape xs idx a).1.length =
        ((List.enumFrom idx xs).map fun p => shape p.2 p.1).sum := by
  intro xs
  induction xs with
  | nil => intro idx a; simp [renderPass]
  | cons x xs ih =>
    intro idx a
    simp only [renderPass, List.enumFrom_cons, List.map_cons, List.sum_cons,
      List.length_append, List.length_map, List.length_range]
    rw [ih (idx + 1) (a + shape x idx)]

/-- C7: Mounting the list helper on a reactive cell renders every item of
the current collection and subscribes the rebuild callback; a write of a
changed collection notifies that callback; the rebuild is computed solely
from the new collection, discarding the previous child set; and every
rebuilt child node is a fresh node — none of the previously rendered nodes
reappears (node identity via the allocation counter). -/
theorem list_full_rebuild {α : Type} [DecidableEq α] (shape : α → Nat → Nat)
    (s : Signal (List α) Nat) (cb a0 : Nat) (arr2 : List α)
    (hchanged : arr2 ≠ s.value) :
    cb ∈ (listMount shape s cb a0).1.subscribers ∧
    cb ∈ (((listMount shape s cb a0).1).write arr2).2 ∧
    (listMount shape s cb a0).2.container = (renderPass shape s.value 0 a0).1 ∧
    (listMount shape s cb a0).2.container.length =
      ((List.enumFrom 0 s.value).map fun p => shape p.2 p.1).sum ∧
    (listRebuild shape (listMount shape s cb a0).2 arr2).container =
      (renderPass shape arr2 0 ((listMount shape s cb a0).2.alloc)).1 ∧
    (listRebuild shape (listMount shape s cb a0).2 arr2).container.length =
      ((List.enumFrom 0 arr2).map fun p => shape p.2 p.1).sum ∧
    ∀ n ∈ (listRebuild shape (listMount shape s cb a0).2 arr2).container,
      n ∉ (listMount shape s cb a0).2.container := by
  have hmem : cb ∈ (listMount shape s cb a0).1.subscribers := by
    simp only [listMount, Signal.addSubscriber]
    split
    · assumption
    · exact List.mem_append_right _ (List.mem_singleton.mpr rfl)
  refine ⟨hmem, ?_, rfl, renderPass_length shape s.value 0 a0, rfl,
    renderPass_length shape arr2 0 _, ?_⟩
  · have hv : (listMount shape s cb a0).1.value = s.value := by
      simp only [listMount, Signal.addSubscriber]
      split <;> rfl
    simp only [Signal.write, hv]
    rw [if_neg (fun hh => hchanged hh.symm)]
    exact hmem
  · intro n hn hold
    have hb1 := (renderPass_bounds shape s.value 0 a0).2 n hold
    have hb2 := (renderPass_bounds shape arr2 0 ((listMount shape s cb a0).2.alloc)).2 n hn
    have halloc : (listMount shape s cb a0).2.alloc = (renderPass shape s.value 0 a0).2 := rfl
    omega

/-- Witness for C7: two items replaced by two fresh items of the same
length; the rebuilt children are disjoint from the originals. -/
theorem list_full_rebuild_witness :
    (listMount (fun (_ : Nat) (_ : Nat) => 1) (Signal.mk [10, 20] []) 7 0).2.container =
      [DNode.mk 0, DNode.mk 1] ∧
    (listRebuild (fun (_ : Nat) (_ : Nat) => 1)
        (listMount (fun (_ : Nat) (_ : Nat) => 1) (Signal.mk [10, 20] []) 7 0).2
        [30, 40]).container = [DNode.mk 2, DNode.mk 3] ∧
    7 ∈ ((listMount (fun (_ : Nat) (_ : Nat) => 1)
        (Signal.mk [10, 20] []) 7 0).1.write [30, 40]).2 ∧
    DNode.mk 2 ∉ (listMount (fun (_ : Nat) (_ : Nat) => 1)
        (Signal.mk [10, 20] []) 7 0).2.container := by
  have h := list_full_rebuild (fun (_ : Nat) (_ : Nat) => 1)
    (Signal.mk [10, 20] []) 7 0 [30, 40] (by decide)
  refine ⟨by decide, by decide, h.2.1, ?_⟩
  exact h.2.2.2.2.2.2 (DNode.mk 2) (by decide)

/-! Support lemmas for C5. -/

/-- Dropping a leading space does not change a JS trim. -/
theorem jsTrim_space_cons (a : Str) : jsTrim (' ' :: a) = jsTrim a := by
  simp [jsTrim, List.dropWhile_cons, jsWhite]

/-- First occurrence of a character after a character-free prefix. -/
theorem idxOfFrom_first (c : Char) :
    ∀ (pre post : Str) (i : Nat), c ∉ pre →
      idxOfFrom (pre ++ c :: post) [c] i = some (i + pre.length) := by
  intro pre
  induction pre with
  | nil =>
    intro post i _
    rw [idxOfFrom.eq_def]
    simp [List.isPrefixOf]
  | cons p ps ih =>
    intro post i hnot
    rw [idxOfFrom.eq_def]
    have hne : ¬ (c = p) := fun hh => hnot (by simp [hh])
    have hpref : ([c].isPrefixOf ((p :: ps) ++ c :: post)) = false := by
      simp only [List.cons_append, List.isPrefixOf, Bool.and_eq_false_iff, beq_eq_false_iff_ne]
      exact Or.inl hne
    rw [hpref]
    simp only [Bool.false_eq_true, if_false, List.cons_append]
    rw [ih post (i + 1) (fun hh => hnot (List.mem_cons_of_mem p hh))]
    congr 1
    simp only [List.length_cons]
    omega

/-- C5: `parseEffect` on a line `~ action`: when the action contains a
pipeline marker `>` and no occurrence of the substring `fetch` (the code's
test for a fetch-style pipeline), the comma-separated expressions before the
first `>` become the dependencies and the text after it the action;
otherwise — in particular for every action mentioning `fetch` — the whole
text is the action with no dependencies. -/
theorem parseEffect_pipeline_split :
    (∀ pre post : Str, '>' ∉ pre →
      ¬ hasSubstr (pre ++ '>' :: post) "fetch".data →
      jsTrim (pre ++ '>' :: post) = pre ++ '>' :: post →
      parseEffect ('~' :: ' ' :: (pre ++ '>' :: post)) =
        some ⟨((jsTrim pre).splitOn ',').map jsTrim, jsTrim post⟩) ∧
    (∀ a : Str, a ≠ [] → jsTrim a = a →
      (¬ hasSubstr a ['>'] ∨ hasSubstr a "fetch".data) →
      parseEffect ('~' :: ' ' :: a) = some ⟨[], a⟩) := by
  constructor
  · intro pre post hpre hfetch htrim
    have hidx : idxOfFrom (pre ++ '>' :: post) ['>'] 0 = some pre.length := by
      simpa using idxOfFrom_first '>' pre post 0 hpre
    have hact : matchEffectAction ('~' :: ' ' :: (pre ++ '>' :: post)) =
        some (pre ++ '>' :: post) := by
      cases hp : pre ++ '>' :: post with
      | nil => cases pre <;> simp at hp
      | cons c2 rest =>
        have hmm : matchEffectAction ('~' :: ' ' :: c2 :: rest) =
            some (jsTrim (' ' :: c2 :: rest)) := by
          simp [matchEffectAction, jsWhite]
        calc matchEffectAction ('~' :: ' ' :: c2 :: rest)
            = some (jsTrim (' ' :: c2 :: rest)) := hmm
          _ = some (jsTrim (c2 :: rest)) := by rw [jsTrim_space_cons]
          _ = some (jsTrim (pre ++ '>' :: post)) := by rw [hp]
          _ = some (pre ++ '>' :: post) := by rw [htrim]
          _ = some (c2 :: rest) := by rw [hp]
    simp only [parseEffect]
    rw [hact]
    simp only [Option.map_some']
    have hhas : hasSubstr (pre ++ '>' :: post) ['>'] = true := by
      simp [hasSubstr, hidx]
    rw [if_pos ⟨hhas, by simpa using hfetch⟩, hidx]
    have htake : (pre ++ '>' :: post).take pre.length = pre := by
      simpa using List.take_left pre ('>' :: post)
    have hdrop : (pre ++ '>' :: post).drop (pre.length + 1) = post := by
      have hsplit : pre ++ '>' :: post = (pre ++ ['>']) ++ post := by simp
      rw [hsplit]
      have hlen : (pre ++ ['>']).length = pre.length + 1 := by simp
      rw [← hlen]
      exact List.drop_left _ _
    simp only [htake, hdrop]
  · intro a ha htrim hcond
    cases a with
    | nil => exact absurd rfl ha
    | cons c2 rest =>
      have hmm : matchEffectAction ('~' :: ' ' :: c2 :: rest) =
          some (jsTrim (' ' :: c2 :: rest)) := by
        simp [matchEffectAction, jsWhite]
      have hng : ¬ (hasSubstr (c2 :: rest) ['>'] = true ∧
          ¬ hasSubstr (c2 :: rest) "fetch".data = true) := by
        intro hcontra
        rcases hcond with hc | hc
        · exact hc hcontra.1
        · exact hcontra.2 hc
      simp only [parseEffect]
      rw [hmm, jsTrim_space_cons, htrim]
      simp only [Option.map_some']
      rw [if_neg hng]

/-- Witness for C5: a dependency-guarded effect and a fetch pipeline. -/
theorem parseEffect_pipeline_split_witness :
    parseEffect "~ $a,$b > save()".data =
      some ⟨["$a".data, "$b".data], "save()".data⟩ ∧
    parseEffect "~ fetch /api > $data".data = some ⟨[], "fetch /api > $data".data⟩ := by
  constructor
  · have h := parseEffect_pipeline_split.1 "$a,$b ".data " save()".data
      (by decide) (by decide) (by decide)
    simpa using h
  · have h := parseEffect_pipeline_split.2 "fetch /api > $data".data
      (by decide) (by decide) (Or.inr (by decide))
    simpa using h

/-- C3 (failing input): Two sources that differ only in a consistent
indentation unit (2 vs 4 spaces for the single nesting level) parse to
different ASTs: `parseMultilineBlock` slices the raw line with an index
computed on the trimmed line, so the inner node is `CodeLine "``]"` at unit
2 but a block `Text "```"` at unit 4. -/
theorem parse_not_indent_invariant :
    probeIndent (parseComponent 20 srcIndent2) = some (1, "``]".data, false) ∧
    probeIndent (parseComponent 20 srcIndent4) = some (2, "```".data, true) ∧
    (probeIndent (parseComponent 20 srcIndent2) ==
      probeIndent (parseComponent 20 srcIndent4)) = false := by
  refine ⟨by decide, by decide, by decide⟩

/-- C4 (counterexample): Two components named `Header` and `Footer`,
each declaring the class literally named `container` (the claim's own
example), emit no CSS rule at all for it: `container` is in the utility
prefix table, so it is never scope-tagged and `collectStyles` skips it —
there are no "two rules with distinct scope-tagged selectors". -/
theorem container_class_never_scoped :
    cssParts [Node.element "div".data ["container".data] none []] "Header".data =
      ["/* Generated from Header.ui */".data, []] ∧
    cssParts [Node.element "div".data ["container".data] none []] "Footer".data =
      ["/* Generated from Footer.ui */".data, []] ∧
    ((cssParts [Node.element "div".data ["container".data] none []] "Header".data).all
      fun l => !(hasSubstr l "container".data)) = true ∧
    (processedClasses (generateScopeId "Header".data) ["container".data]) =
      ["container".data] := by
  refine ⟨by decide, by decide, by decide, by decide⟩

/-- C6 (counterexample): Two root-level references `@@Foo` push two
imports with the same name: the dedup guard exists only in `parseChildren`,
not in `parseRootElements`. -/
theorem root_component_import_duplicated :
    (parseComponent 20 "<?\n@@Foo\n@@Foo".data).map (fun c => importNames c.imports) =
      some ["Foo".data, "Foo".data] ∧
    (parseComponent 20 "<?\n@@Foo\n@@Foo".data).map
        (fun c => (importNames c.imports).count "Foo".data) = some 2 := by
  refine ⟨by decide, by decide⟩

/-- C8 (counterexample): A malformed line is skipped without a node of
its own, but it is not free of effect on the rest of the parse: a
more-indented junk line after a bare `$items` flips the loop/variable
disambiguation, so removing the malformed line changes the AST. -/
theorem malformed_line_changes_ast :
    probeJunk (parseComponent 20 srcWithJunk) = some (0, "$items".data) ∧
    probeJunk (parseComponent 20 srcNoJunk) = some (99, "$items".data) ∧
    (probeJunk (parseComponent 20 srcWithJunk) ==
      probeJunk (parseComponent 20 srcNoJunk)) = false := by
  refine ⟨by decide, by decide, by decide⟩

/-- C4 (amended): The generator partitions classes by `isUtilityClass`
(prefix table + arbitrary-value pattern): utility classes pass through
unscoped, local classes get the `-scopeId` suffix.  For two components
whose names hash to different scope tags, a shared local class yields two
CSS rules with distinct scope-tagged selectors. -/
theorem local_class_scoped_selectors (n1 n2 c : Str)
    (hc : isUtilityClass c = false)
    (hs : (generateScopeId n1 == generateScopeId n2) = false) :
    cssParts [Node.element "div".data [c] none []] n1 =
      ["/* Generated from ".data ++ n1 ++ ".ui */".data, []] ++
        cssRuleLines (generateScopeId n1) c ∧
    cssParts [Node.element "div".data [c] none []] n2 =
      ["/* Generated from ".data ++ n2 ++ ".ui */".data, []] ++
        cssRuleLines (generateScopeId n2) c ∧
    ((".".data ++ c ++ "-".data ++ generateScopeId n1 ++ " \x7b".data) ==
      (".".data ++ c ++ "-".data ++ generateScopeId n2 ++ " \x7b".data)) = false ∧
    processedClasses (generateScopeId n1) [c] = [c ++ "-".data ++ generateScopeId n1] := by
  have hc2 := hc
  simp only [isUtilityClass, Bool.or_eq_false_iff] at hc2
  have harb : isArbitraryClass c = false := hc2.1
  have hparts : ∀ n : Str,
      cssParts [Node.element "div".data [c] none []] n =
        ["/* Generated from ".data ++ n ++ ".ui */".data, []] ++
          cssRuleLines (generateScopeId n) c := by
    intro n
    simp [cssParts, collectStyles, collectStylesChildren, collectArb, collectArbChildren,
      hc, harb]
  refine ⟨hparts n1, hparts n2, ?_, by simp [processedClasses, hc]⟩
  rw [beq_eq_false_iff_ne] at hs ⊢
  intro heq
  apply hs
  have h1 := List.append_cancel_right heq
  exact List.append_cancel_left h1

/-- Witness for C4 (amended) at components `Alpha`/`Beta` with local class
`title`. -/
theorem local_class_scoped_selectors_witness :
    ((".".data ++ "title".data ++ "-".data ++ generateScopeId "Alpha".data ++ " \x7b".data) ==
      (".".data ++ "title".data ++ "-".data ++ generateScopeId "Beta".data ++ " \x7b".data))
        = false ∧
    cssParts [Node.element "div".data ["title".data] none []] "Alpha".data =
      ["/* Generated from ".data ++ "Alpha".data ++ ".ui */".data, []] ++
        cssRuleLines (generateScopeId "Alpha".data) "title".data := by
  have h := local_class_scoped_selectors "Alpha".data "Beta".data "title".data
    (by decide) (by decide)
  exact ⟨h.2.2.1, h.1⟩

/-- The children loop spins forever on the line `␣␣?`: `parseConditional`
returns `null` without advancing the position, so `parseChildren` revisits
the same line; no amount of fuel yields a result. -/
theorem parseChildren_hang : ∀ n, parseChildren n [] 0 remHang [] = none := by
  intro n
  induction n with
  | zero => rfl
  | succ n ih =>
    cases n with
    | zero => rfl
    | succ m =>
      calc parseChildren (m + 2) [] 0 remHang []
          = (parseChildren (m + 1) [] 0 remHang []).map
              (fun r => (Node.nullNode :: r.1, r.2)) := rfl
        _ = none := by rw [ih]; rfl

/-- C10: The parser does not terminate on every input: on `srcHang`
(a nested bare `?` line) the root-element, markup and children loops never
finish — for every fuel the fueled parser runs out. -/
theorem parse_diverges_on_bare_conditional :
    ∀ fuel, parseComponent fuel srcHang = none := by
  intro fuel
  match fuel with
  | 0 => rfl
  | 1 => rfl
  | 2 => rfl
  | n + 3 =>
    have h0 : parseComponent (n + 3) srcHang =
        (((parseChildren (n + 1) [] 0 remHang []).map
            (fun r => (Node.element "div".data [] none r.1, r.2))).bind
          (fun p => (parseRootElements (n + 2) [] p.2.2 p.2.1).map
            (fun r => (p.1 :: r.1, r.2)))).map
          (fun r => Component.mk r.2.1 [] [] r.1) := rfl
    rw [h0, parseChildren_hang (n + 1)]
    rfl

/-- Generalized invariant for the `findContentBracket` scanner: started at
index `i` with the previous character and the depth accumulated so far, it
returns the first content-bracket index at or after `i`. -/
theorem fcbAux_spec (line : Str) :
    ∀ k i, i + k = line.length →
      fcbAux (line.drop i) (prevCharAt line i) (depthUpTo line i) i =
        (List.range' i k).find? (isContentBracketAt line) := by
  intro k
  induction k with
  | zero =>
    intro i hi
    have hdrop : line.drop i = [] := List.drop_eq_nil_of_le (by omega)
    rw [hdrop]
    rfl
  | succ k ih =>
    intro i hi
    have hlt : i < line.length := by omega
    have hc : line.get? i = some (line.get ⟨i, hlt⟩) := List.get?_eq_get hlt
    set c := line.get ⟨i, hlt⟩ with hcdef
    have hdrop : line.drop i = c :: line.drop (i + 1) := List.drop_eq_get_cons hlt
    have hprevnext : prevCharAt line (i + 1) = some c := by
      simp only [prevCharAt, Nat.add_sub_cancel]
      rw [if_neg (by omega)]
      exact hc
    have hdepthnext :
        depthUpTo line (i + 1) = depthStep (prevCharAt line i) (some c) (depthUpTo line i) := by
      simp only [depthUpTo]
      rw [hc]
    have hrange : List.range' i (k + 1) = i :: List.range' (i + 1) k := rfl
    have hpred : isContentBracketAt line i =
        ((c == '[') && (prevCharAt line i != some '-') && (depthUpTo line i == 0)) := by
      simp only [isContentBracketAt]
      rw [hc]
      simp
    rw [hdrop, hrange]
    rw [fcbAux]
    by_cases hbrk : c = '['
    · by_cases hhyp : prevCharAt line i = some '-'
      · -- hyphen-prefixed bracket: depth increases, index skipped
        have hfa : (c == '[') = true := by simp [hbrk]
        have hfp : (prevCharAt line i == some '-') = true := by simp [hhyp]
        rw [hfa, if_pos rfl, hfp, if_pos rfl]
        have hd2 : depthUpTo line (i + 1) = depthUpTo line i + 1 := by
          rw [hdepthnext]
          simp [depthStep, hbrk, hhyp]
        have hfind : isContentBracketAt line i = false := by
          rw [hpred]
          simp [hhyp]
        rw [List.find?_cons_of_neg _ (by simp [hfind])]
        rw [← hprevnext, ← hd2]
        exact ih (i + 1) (by omega)
      · by_cases hdz : depthUpTo line i = 0
        · -- content bracket found
          have hfa : (c == '[') = true := by simp [hbrk]
          have hfp : (prevCharAt line i == some '-') = false := by simp [hhyp]
          rw [hfa, if_pos rfl, hfp]
          simp only [Bool.false_eq_true, if_false]
          have hdz2 : (depthUpTo line i == 0) = true := by simp [hdz]
          rw [hdz2, if_pos rfl]
          have hfind : isContentBracketAt line i = true := by
            rw [hpred]
            simp [hbrk, hhyp, hdz]
          rw [List.find?_cons_of_pos _ (by simp [hfind])]
        · -- bracket at positive depth: skipped, depth unchanged
          have hfa : (c == '[') = true := by simp [hbrk]
          have hfp : (prevCharAt line i == some '-') = false := by simp [hhyp]
          have hdz2 : (depthUpTo line i == 0) = false := by simp [hdz]
          rw [hfa, if_pos rfl, hfp]
          simp only [Bool.false_eq_true, if_false]
          rw [hdz2]
          simp only [Bool.false_eq_true, if_false]
          have hd2 : depthUpTo line (i + 1) = depthUpTo line i := by
            rw [hdepthnext]
            simp [depthStep, hbrk, hhyp]
          have hfind : isContentBracketAt line i = false := by
            rw [hpred]
            simp [hdz]
          rw [List.find?_cons_of_neg _ (by simp [hfind])]
          rw [← hprevnext, ← hd2]
          exact ih (i + 1) (by omega)
    · -- not a bracket: `]` or any other character
      have hfa : (c == '[') = false := by simp [hbrk]
      rw [hfa]
      simp only [Bool.false_eq_true, if_false]
      have hfind : isContentBracketAt line i = false := by
        rw [hpred]
        simp [hbrk]
      by_cases hcl : c = ']'
      · have hfc : (c == ']') = true := by simp [hcl]
        rw [hfc, if_pos rfl]
        have hd2 : depthUpTo line (i + 1) =
            (if depthUpTo line i > 0 then depthUpTo line i - 1 else depthUpTo line i) := by
          rw [hdepthnext, hcl]
          simp only [depthStep]
          rw [if_neg (by decide), if_pos trivial]
          split <;> omega
        rw [List.find?_cons_of_neg _ (by simp [hfind])]
        rw [← hprevnext, ← hd2]
        exact ih (i + 1) (by omega)
      · have hfc : (c == ']') = false := by simp [hcl]
        rw [hfc]
        simp only [Bool.false_eq_true, if_false]
        have hd2 : depthUpTo line (i + 1) = depthUpTo line i := by
          rw [hdepthnext]
          simp [depthStep, hbrk, hcl]
        rw [List.find?_cons_of_neg _ (by simp [hfind])]
        rw [← hprevnext, ← hd2]
        exact ih (i + 1) (by omega)

/-- C2: `findContentBracket` returns exactly the first index holding an
unprefixed bracket at depth 0 per the hyphen-bracket depth discipline — in
particular a hyphen-prefixed (arbitrary-value) bracket is never selected,
even when it is the first bracket on the line, since `isContentBracketAt`
requires the previous character not to be a hyphen. -/
theorem findContentBracket_eq_spec (line : Str) :
    findContentBracket line = specFindBracket line := by
  have h := fcbAux_spec line line.length 0 (by omega)
  simp only [List.drop_zero] at h
  rw [findContentBracket]
  rw [show prevCharAt line 0 = none from rfl, show depthUpTo line 0 = 0 from rfl] at h
  rw [h, specFindBracket, List.range_eq_range']

/-! Support lemmas for C6: the parser only ever consumes lines from the
front, so every returned remaining-lines list is a suffix of the input, and
the only unguarded import push is the root-level `@@` branch. -/

/-- The closing-fence scan returns a suffix of its input lines. -/
theorem mlbScan_suffix : ∀ (ls acc : List Str) (r : List Str),
    (mlbScan ls acc).2 = some r → r <:+ ls := by
  intro ls
  induction ls with
  | nil => intro acc r h; simp [mlbScan] at h
  | cons l ls ih =>
    intro acc r h
    rw [mlbScan] at h
    split at h
    · simp only [Option.some.injEq] at h
      exact h ▸ List.suffix_refl _
    · exact (ih _ r h).trans (List.suffix_cons l ls)

/-- Embeds `parseMultilineBlock` returns a suffix of its input lines. -/
theorem parseMultilineBlock_suffix (rem : List Str) (s : Nat) :
    (parseMultilineBlock rem s).2 <:+ rem := by
  cases rem with
  | nil => exact List.suffix_refl _
  | cons l ls =>
    rw [parseMultilineBlock]
    split
    · exact List.suffix_refl _
    · dsimp only
      split
      · rename_i codeLines remClose heq
        exact (mlbScan_suffix ls _ remClose (by rw [heq])).trans (List.suffix_cons l ls)
      · exact List.suffix_refl _

/-- The inline-content step returns a suffix of its input lines. -/
theorem inlinePart_suffix (line : Str) (rem : List Str) :
    (inlinePart line rem).2 <:+ rem := by
  rw [inlinePart]
  split
  · dsimp only
    split
    · exact parseMultilineBlock_suffix _ _
    · exact List.suffix_refl _
  · exact List.suffix_refl _

/-- The guarded import push of `parseChildren` preserves duplicate-freeness
of the import names. -/
theorem addImport_nodup (imps : List PImport) (n p : Str)
    (h : (importNames imps).Nodup) :
    (importNames (if imps.any (fun i => i.name == n) then imps
                  else imps ++ [⟨n, p⟩])).Nodup := by
  split
  · exact h
  · rename_i hany
    have hnotin : n ∉ importNames imps := by
      intro hmem
      apply hany
      simp only [importNames, List.mem_map] at hmem
      obtain ⟨i, hi, hin⟩ := hmem
      exact List.any_eq_true.mpr ⟨i, hi, by simp [hin]⟩
    simp only [importNames, List.map_append, List.map_cons, List.map_nil]
    rw [List.nodup_append]
    refine ⟨h, List.nodup_singleton n, fun a ha hb => ?_⟩
    rw [List.mem_singleton] at hb
    exact hnotin (hb ▸ ha)

/-- The legacy-mode scan hands the markup phase a suffix of its input. -/
theorem legacyScan_suffix : ∀ (ls : List Str) (acc acc2 : PreAcc) (r : List Str),
    legacyScan ls acc = (acc2, some r) → r <:+ ls := by
  intro ls
  induction ls with
  | nil =>
    intro acc acc2 r h
    simp only [legacyScan, Prod.mk.injEq] at h
    exact absurd h.2 (by simp)
  | cons l rest ih =>
    intro acc acc2 r h
    rw [legacyScan] at h
    split at h
    · exact (ih _ _ _ h).trans (List.suffix_cons l rest)
    · split at h
      · exact (ih _ _ _ h).trans (List.suffix_cons l rest)
      · split at h
        · exact (ih _ _ _ h).trans (List.suffix_cons l rest)
        · split at h
          · exact (ih _ _ _ h).trans (List.suffix_cons l rest)
          · split at h
            · simp only [Prod.mk.injEq, Option.some.injEq] at h
              exact h.2 ▸ List.suffix_refl _
            · exact (ih _ _ _ h).trans (List.suffix_cons l rest)

/-- Central invariant of the markup phase: every parser loop preserves
duplicate-freeness of the import names (the only unguarded push is the
root-level `@@` branch, excluded by the hypothesis on `parseRootElements`'s
lines), and consumes lines only from the front. -/
theorem parser_imports_invariant : ∀ fuel : Nat,
    (∀ al rem imps res, (∀ l ∈ rem, isRootCompRef l = false) →
      parseRootElements fuel al rem imps = some res →
      ImpsOk imps res.2.1 ∧ res.2.2 <:+ rem) ∧
    (∀ al rem imps res, parseMarkup fuel al rem imps = some res →
      ImpsOk imps res.2.1 ∧ res.2.2 <:+ rem) ∧
    (∀ al pI rem imps res, parseChildren fuel al pI rem imps = some res →
      ImpsOk imps res.2.1 ∧ res.2.2 <:+ rem) ∧
    (∀ al rem imps res, parseConditional fuel al rem imps = some res →
      ImpsOk imps res.2.1 ∧ res.2.2 <:+ rem) ∧
    (∀ al rem imps res, parseLoop fuel al rem imps = some res →
      ImpsOk imps res.2.1 ∧ res.2.2 <:+ rem) := by
  intro fuel
  induction fuel with
  | zero =>
    refine ⟨?_, ?_, ?_, ?_, ?_⟩
    · intro al rem imps res _ h
      rw [parseRootElements] at h
      exact Option.noConfusion h
    · intro al rem imps res h
      rw [parseMarkup] at h
      exact Option.noConfusion h
    · intro al pI rem imps res h
      rw [parseChildren] at h
      exact Option.noConfusion h
    · intro al rem imps res h
      rw [parseConditional] at h
      exact Option.noConfusion h
    · intro al rem imps res h
      rw [parseLoop] at h
      exact Option.noConfusion h
  | succ fuel ih =>
    obtain ⟨ihRE, ihM, ihC, ihCond, ihLoop⟩ := ih
    refine ⟨?_, ?_, ?_, ?_, ?_⟩
    · -- parseRootElements
      intro al rem imps res H h
      cases rem with
      | nil =>
        simp only [parseRootElements, Option.some.injEq] at h
        subst h
        exact ⟨fun hh => hh, List.nil_suffix⟩
      | cons l rest =>
        simp only [parseRootElements] at h
        split at h
        · obtain ⟨hi, hs⟩ :=
            ihRE al rest imps res (fun x hx => H x (List.mem_cons_of_mem l hx)) h
          exact ⟨hi, hs.trans (List.suffix_cons l rest)⟩
        · split at h
          · rename_i h1 h2
            have hH := H l (List.mem_cons_self l rest)
            rw [isRootCompRef] at hH
            simp [h2.1, h2.2] at hH
          · split at h
            · rw [Option.bind_eq_some] at h
              obtain ⟨p, hp, h⟩ := h
              rw [Option.map_eq_some'] at h
              obtain ⟨r, hr, hres⟩ := h
              obtain ⟨hiM, hsM⟩ := ihM _ _ _ _ hp
              obtain ⟨hiR, hsR⟩ := ihRE _ _ _ _ (fun x hx => H x (hsM.subset hx)) hr
              subst hres
              exact ⟨fun hh => hiR (hiM hh), hsR.trans hsM⟩
            · split at h
              · rw [Option.bind_eq_some] at h
                obtain ⟨p, hp, h⟩ := h
                rw [Option.map_eq_some'] at h
                obtain ⟨r, hr, hres⟩ := h
                obtain ⟨hiM, hsM⟩ := ihM _ _ _ _ hp
                obtain ⟨hiR, hsR⟩ := ihRE _ _ _ _ (fun x hx => H x (hsM.subset hx)) hr
                subst hres
                exact ⟨fun hh => hiR (hiM hh), hsR.trans hsM⟩
              · split at h
                · simp only [Option.some.injEq] at h
                  subst h
                  exact ⟨fun hh => hh, List.suffix_refl _⟩
                · obtain ⟨hi, hs⟩ :=
                    ihRE al rest imps res (fun x hx => H x (List.mem_cons_of_mem l hx)) h
                  exact ⟨hi, hs.trans (List.suffix_cons l rest)⟩
    · -- parseMarkup
      intro al rem imps res h
      cases rem with
      | nil =>
        rw [parseMarkup] at h
        exact Option.noConfusion h
      | cons l rest =>
        simp only [parseMarkup] at h
        rw [Option.map_eq_some'] at h
        obtain ⟨r, hr, hres⟩ := h
        obtain ⟨hiC, hsC⟩ := ihC _ _ _ _ _ hr
        subst hres
        exact ⟨hiC, hsC.trans ((List.drop_suffix 1 _).trans (inlinePart_suffix _ _))⟩
    · -- parseChildren
      intro al pI rem imps res h
      cases rem with
      | nil =>
        simp only [parseChildren, Option.some.injEq] at h
        subst h
        exact ⟨fun hh => hh, List.nil_suffix⟩
      | cons l rest =>
        simp only [parseChildren] at h
        split at h
        · simp only [Option.some.injEq] at h
          subst h
          exact ⟨fun hh => hh, List.suffix_refl _⟩
        · split at h
          · obtain ⟨hi, hs⟩ := ihC al pI rest imps res h
            exact ⟨hi, hs.trans (List.suffix_cons l rest)⟩
          · split at h
            · rw [Option.map_eq_some'] at h
              obtain ⟨r, hr, hres⟩ := h
              obtain ⟨hiC2, hsC2⟩ := ihC _ _ _ _ _ hr
              subst hres
              exact ⟨hiC2, hsC2.trans (List.suffix_cons l rest)⟩
            · split at h
              · split at h
                · rw [Option.bind_eq_some] at h
                  obtain ⟨p, hp, h⟩ := h
                  rw [Option.map_eq_some'] at h
                  obtain ⟨r, hr, hres⟩ := h
                  obtain ⟨hiL, hsL⟩ := ihLoop _ _ _ _ hp
                  obtain ⟨hiC2, hsC2⟩ := ihC _ _ _ _ _ hr
                  subst hres
                  exact ⟨fun hh => hiC2 (hiL hh), hsC2.trans hsL⟩
                · rw [Option.map_eq_some'] at h
                  obtain ⟨r, hr, hres⟩ := h
                  obtain ⟨hiC2, hsC2⟩ := ihC _ _ _ _ _ hr
                  subst hres
                  exact ⟨hiC2, hsC2.trans (List.suffix_cons l rest)⟩
              · split at h
                · rw [Option.bind_eq_some] at h
                  obtain ⟨p, hp, h⟩ := h
                  rw [Option.map_eq_some'] at h
                  obtain ⟨r, hr, hres⟩ := h
                  obtain ⟨hiCd, hsCd⟩ := ihCond _ _ _ _ hp
                  obtain ⟨hiC2, hsC2⟩ := ihC _ _ _ _ _ hr
                  subst hres
                  exact ⟨fun hh => hiC2 (hiCd hh), hsC2.trans hsCd⟩
                · split at h
                  · rw [Option.map_eq_some'] at h
                    obtain ⟨r, hr, hres⟩ := h
                    obtain ⟨hiC2, hsC2⟩ := ihC _ _ _ _ _ hr
                    subst hres
                    refine ⟨fun hh => hiC2 (addImport_nodup imps _ _ hh),
                      hsC2.trans (List.suffix_cons l rest)⟩
                  · split at h
                    · rw [Option.bind_eq_some] at h
                      obtain ⟨p, hp, h⟩ := h
                      rw [Option.map_eq_some'] at h
                      obtain ⟨r, hr, hres⟩ := h
                      obtain ⟨hiM, hsM⟩ := ihM _ _ _ _ hp
                      obtain ⟨hiC2, hsC2⟩ := ihC _ _ _ _ _ hr
                      subst hres
                      exact ⟨fun hh => hiC2 (hiM hh), hsC2.trans hsM⟩
                    · split at h
                      · rw [Option.bind_eq_some] at h
                        obtain ⟨p, hp, h⟩ := h
                        rw [Option.map_eq_some'] at h
                        obtain ⟨r, hr, hres⟩ := h
                        obtain ⟨hiM, hsM⟩ := ihM _ _ _ _ hp
                        obtain ⟨hiC2, hsC2⟩ := ihC _ _ _ _ _ hr
                        subst hres
                        exact ⟨fun hh => hiC2 (hiM hh), hsC2.trans hsM⟩
                      · obtain ⟨hi, hs⟩ := ihC al pI rest imps res h
                        exact ⟨hi, hs.trans (List.suffix_cons l rest)⟩
    · -- parseConditional
      intro al rem imps res h
      cases rem with
      | nil =>
        rw [parseConditional] at h
        exact Option.noConfusion h
      | cons l rest =>
        simp only [parseConditional] at h
        split at h
        · split at h
          · rw [Option.map_eq_some'] at h
            obtain ⟨r, hr, hres⟩ := h
            obtain ⟨hiC2, hsC2⟩ := ihC _ _ _ _ _ hr
            subst hres
            exact ⟨hiC2, hsC2.trans (List.suffix_cons l rest)⟩
          · simp only [Option.some.injEq] at h
            subst h
            exact ⟨fun hh => hh, List.suffix_refl _⟩
        · simp only [Option.some.injEq] at h
          subst h
          exact ⟨fun hh => hh, List.suffix_refl _⟩
    · -- parseLoop
      intro al rem imps res h
      cases rem with
      | nil =>
        rw [parseLoop] at h
        exact Option.noConfusion h
      | cons l rest =>
        simp only [parseLoop] at h
        split at h
        · split at h
          · simp only [Option.some.injEq] at h
            subst h
            exact ⟨fun hh => hh, List.suffix_refl _⟩
          · rw [Option.map_eq_some'] at h
            obtain ⟨r, hr, hres⟩ := h
            obtain ⟨hiC2, hsC2⟩ := ihC _ _ _ _ _ hr
            subst hres
            exact ⟨hiC2, hsC2.trans (List.suffix_cons l rest)⟩
        · simp only [Option.some.injEq] at h
          subst h
          exact ⟨fun hh => hh, List.suffix_refl _⟩

/-- C6 (amended): As long as no component reference sits in root
position (every `@@` line is indented), the parsed imports list has at most
one entry per referenced component name, no matter how often a component is
referenced in child position: the child-position push is guarded by a
membership test.  (Root-position references append unconditionally — see
the counterexample theorem.) -/
theorem imports_deduplicated (fuel : Nat) (src : Str)
    (H : ∀ l ∈ src.splitOn '\n', isRootCompRef l = false) :
    ∀ c, parseComponent fuel src = some c → (importNames c.imports).Nodup := by
  intro c h
  simp only [parseComponent, parseLines] at h
  split at h
  · rename_i x sep heq
    rw [Option.map_eq_some'] at h
    obtain ⟨r, hr, hres⟩ := h
    obtain ⟨hi, _⟩ := (parser_imports_invariant fuel).1 _ _ _ _
      (fun x hx => H x ((List.drop_suffix (sep + 1) (src.splitOn '\n')).subset hx)) hr
    subst hres
    exact hi List.nodup_nil
  · split at h
    · rename_i acc remm heq
      rw [Option.map_eq_some'] at h
      obtain ⟨r, hr, hres⟩ := h
      have hsuf := legacyScan_suffix _ _ _ _ heq
      obtain ⟨hi, _⟩ := (parser_imports_invariant fuel).1 _ _ _ _
        (fun x hx => H x (hsuf.subset hx)) hr
      subst hres
      exact hi List.nodup_nil
    · simp only [Option.some.injEq] at h
      subst h
      exact List.nodup_nil

/-- Witness for C6 (amended): the duplicated child-position reference is
registered once. -/
theorem imports_deduplicated_witness :
    (parseComponent 20 "<?\ndiv\n  @@Foo\n  @@Foo".data).isSome = true ∧
    (parseComponent 20 "<?\ndiv\n  @@Foo\n  @@Foo".data).elim True
      (fun c => (importNames c.imports).Nodup) := by
  refine ⟨by decide, ?_⟩
  have h := imports_deduplicated 20 "<?\ndiv\n  @@Foo\n  @@Foo".data (by decide)
  cases hp : parseComponent 20 "<?\ndiv\n  @@Foo\n  @@Foo".data with
  | none => trivial
  | some c => exact h c hp

/-! Support lemmas for C8 (amended). -/

/-- An inert preamble line leaves the preamble accumulator unchanged. -/
theorem preStep_inert (l : Str) (h : preLineInert l = true) (acc : PreAcc) :
    preStep acc l = acc := by
  simp only [preLineInert, Bool.or_eq_true, Bool.and_eq_true] at h
  simp only [preStep]
  split
  · rfl
  · rename_i h1
    split
    · rename_i h2
      split
      · rename_i sd h3
        exfalso
        rcases h with (((((hb | hcmt) | hst) | heff) | hal) | hot)
        · exact h1 (Or.inl (List.isEmpty_iff.mp hb))
        · exact h1 (Or.inr hcmt)
        · rw [h3] at hst
          simp at hst
        · rw [h2] at heff
          simp at heff
        · rw [h2] at hal
          simp at hal
        · rw [h2] at hot
          simp at hot
      · rfl
    · rename_i h2
      split
      · rename_i h3
        split
        · rename_i e h4
          exfalso
          rcases h with (((((hb | hcmt) | hst) | heff) | hal) | hot)
          · exact h1 (Or.inl (List.isEmpty_iff.mp hb))
          · exact h1 (Or.inr hcmt)
          · rw [h3] at hst
            simp at hst
          · rw [h4] at heff
            simp at heff
          · rw [h3] at hal
            simp at hal
          · rw [h3] at hot
            simp at hot
        · rfl
      · rename_i h3
        split
        · rename_i h4
          split
          · rename_i nd h5
            exfalso
            rcases h with (((((hb | hcmt) | hst) | heff) | hal) | hot)
            · exact h1 (Or.inl (List.isEmpty_iff.mp hb))
            · exact h1 (Or.inr hcmt)
            · rw [h4] at hst
              simp at hst
            · rw [h4] at heff
              simp at heff
            · rw [h5] at hal
              simp at hal
            · rw [h4] at hot
              simp at hot
          · rfl
        · rfl

/-- Locating the first separator line after a separator-free prefix. -/
theorem findIdx_sep :
    ∀ (pre : List Str) (sep : Str) (post : List Str) (i : Nat),
      (jsTrim sep == "<?".data) = true →
      (∀ l ∈ pre, (jsTrim l == "<?".data) = false) →
      List.findIdx? (fun l => jsTrim l == "<?".data) (pre ++ sep :: post) i =
        some (i + pre.length) := by
  intro pre
  induction pre with
  | nil =>
    intro sep post i hsep _
    rw [List.nil_append, List.findIdx?_cons, if_pos hsep]
    simp
  | cons p ps ih =>
    intro sep post i hsep hpre
    rw [List.cons_append, List.findIdx?_cons,
      if_neg (by rw [hpre p (List.mem_cons_self p ps)]; simp)]
    rw [ih sep post (i + 1) hsep (fun l hl => hpre l (List.mem_cons_of_mem p hl))]
    congr 1
    simp only [List.length_cons]
    omega

/-- C8 (amended): In separator mode, a malformed (inert) preamble line
contributes no state declaration, effect or alias, and removing it leaves
the parse of all remaining lines — the rest of the preamble and the whole
markup phase — unchanged. -/
theorem inert_preamble_line_skipped (fuel : Nat) (pre1 pre2 post : List Str)
    (mal : Str) (hmal : preLineInert mal = true)
    (hm2 : (jsTrim mal == "<?".data) = false)
    (hpre : ∀ l ∈ pre1 ++ pre2, (jsTrim l == "<?".data) = false) :
    parseLines fuel (pre1 ++ mal :: pre2 ++ "<?".data :: post) =
      parseLines fuel (pre1 ++ pre2 ++ "<?".data :: post) := by
  have hsep : (jsTrim "<?".data == "<?".data) = true := by decide
  have hpre1 : ∀ l ∈ pre1, (jsTrim l == "<?".data) = false :=
    fun l hl => hpre l (List.mem_append_left _ hl)
  have hpre2 : ∀ l ∈ pre2, (jsTrim l == "<?".data) = false :=
    fun l hl => hpre l (List.mem_append_right _ hl)
  have hpreL : ∀ l ∈ pre1 ++ mal :: pre2, (jsTrim l == "<?".data) = false := by
    intro l hl
    rcases List.mem_append.mp hl with h1 | h2
    · exact hpre1 l h1
    · rcases List.mem_cons.mp h2 with rfl | h3
      · exact hm2
      · exact hpre2 l h3
  have hfindL :
      List.findIdx? (fun l => jsTrim l == "<?".data)
        ((pre1 ++ mal :: pre2) ++ "<?".data :: post) 0 =
        some (pre1 ++ mal :: pre2).length :=
    by simpa using findIdx_sep (pre1 ++ mal :: pre2) "<?".data post 0 hsep hpreL
  have hfindR :
      List.findIdx? (fun l => jsTrim l == "<?".data)
        ((pre1 ++ pre2) ++ "<?".data :: post) 0 =
        some (pre1 ++ pre2).length :=
    by simpa using findIdx_sep (pre1 ++ pre2) "<?".data post 0 hsep hpre
  have htakeL : ((pre1 ++ mal :: pre2) ++ "<?".data :: post).take
      (pre1 ++ mal :: pre2).length = pre1 ++ mal :: pre2 := List.take_left _ _
  have htakeR : ((pre1 ++ pre2) ++ "<?".data :: post).take
      (pre1 ++ pre2).length = pre1 ++ pre2 := List.take_left _ _
  have hdropL : ((pre1 ++ mal :: pre2) ++ "<?".data :: post).drop
      ((pre1 ++ mal :: pre2).length + 1) = post := by
    have hsplit : (pre1 ++ mal :: pre2) ++ "<?".data :: post =
        ((pre1 ++ mal :: pre2) ++ ["<?".data]) ++ post := by simp
    rw [hsplit]
    have hlen : ((pre1 ++ mal :: pre2) ++ ["<?".data]).length =
        (pre1 ++ mal :: pre2).length + 1 := by
      simp only [List.length_append, List.length_cons, List.length_nil]
    rw [← hlen]
    exact List.drop_left _ _
  have hdropR : ((pre1 ++ pre2) ++ "<?".data :: post).drop
      ((pre1 ++ pre2).length + 1) = post := by
    have hsplit : (pre1 ++ pre2) ++ "<?".data :: post =
        ((pre1 ++ pre2) ++ ["<?".data]) ++ post := by simp
    rw [hsplit]
    have hlen : ((pre1 ++ pre2) ++ ["<?".data]).length = (pre1 ++ pre2).length + 1 := by
      simp only [List.length_append, List.length_cons, List.length_nil]
    rw [← hlen]
    exact List.drop_left _ _
  have hfold : (pre1 ++ mal :: pre2).foldl preStep (PreAcc.mk [] [] []) =
      (pre1 ++ pre2).foldl preStep (PreAcc.mk [] [] []) := by
    rw [List.foldl_append, List.foldl_append, List.foldl_cons,
      preStep_inert mal hmal]
  have hL : pre1 ++ mal :: pre2 ++ "<?".data :: post =
      (pre1 ++ mal :: pre2) ++ "<?".data :: post := by simp
  have hR : pre1 ++ pre2 ++ "<?".data :: post = (pre1 ++ pre2) ++ "<?".data :: post := by
    simp
  rw [parseLines, parseLines, hL, hR, hfindL, hfindR]
  simp only [htakeL, htakeR, hdropL, hdropR, hfold]

/-- Witness for C8 (amended): inserting the junk line `%%%` into the
preamble does not change the parse. -/
theorem inert_preamble_line_skipped_witness :
    parseLines 20 (["$n:0".data] ++ "%%%".data :: [] ++ "<?".data :: ["div".data]) =
      parseLines 20 (["$n:0".data] ++ [] ++ "<?".data :: ["div".data]) := by
  exact inert_preamble_line_skipped 20 ["$n:0".data] [] ["div".data] "%%%".data
    (by decide) (by decide) (by decide)

end CSlop
